import Mathlib

/-!
# Verification of the serialization engine of `src/include/sv/serialize.h`

A shallow embedding of the Bitcoin-SV style serialization header
(`serialize.h`): little-endian primitive codecs, the CompactSize and VarInt
variable-length integer codecs, the chunked vector/prevector decoders, the
map/set decoders, and the `CSizeComputer` size-computation pass.

Streams are modelled as lists of natural numbers standing for bytes; a read
of a byte takes the list head modulo 256 (mirroring the `uint8_t` typing of
`ser_readdata8`), and an exhausted source yields an `underrun` error, the
behaviour of the stream classes used with this header (their `read` checks
the remaining size and throws before copying).  Machine integers are
modelled as `Nat` with explicit `% 2^w` truncation at the points where the
C++ performs an implicit narrowing conversion.  All C++ exceptions become
values of the `SerErr` error type, and fallible operations return `Except
SerErr`.
-/

/-- Error kinds of the codec, one per distinct `throw` in the source. -/
inductive SerErr where
  /-- Source exhausted before the requested bytes were available. -/
  | underrun : SerErr
  /-- `"non-canonical ReadCompactSize()"`. -/
  | nonCanonical : SerErr
  /-- `"size too large"`, from `WriteCompactSize` or `ReadCompactSize`. -/
  | sizeTooLarge : SerErr
  /-- `"Deserialisation Error ReadVarInt"` (both throw sites of `ReadVarInt`
  use this same message). -/
  | varIntDeserError : SerErr
  deriving DecidableEq, Repr

/-! ## Primitive little-endian codec (`ser_writedata*` / `ser_readdata*`) -/

/-- `ser_writedata8`: one byte, truncated to `uint8_t`. -/
def ser_writedata8 (n : Nat) : List Nat := [n % 256]

/-- `ser_writedata16`: `htole16` then two bytes, little-endian. -/
def ser_writedata16 (n : Nat) : List Nat := [n % 256, n / 256 % 256]

/-- `ser_writedata32`: `htole32` then four bytes, little-endian. -/
def ser_writedata32 (n : Nat) : List Nat :=
  [n % 256, n / 256 % 256, n / 256 ^ 2 % 256, n / 256 ^ 3 % 256]

/-- `ser_writedata64`: `htole64` then eight bytes, little-endian. -/
def ser_writedata64 (n : Nat) : List Nat :=
  [n % 256, n / 256 % 256, n / 256 ^ 2 % 256, n / 256 ^ 3 % 256,
   n / 256 ^ 4 % 256, n / 256 ^ 5 % 256, n / 256 ^ 6 % 256, n / 256 ^ 7 % 256]

/-- `ser_readdata8`: read one byte (as `uint8_t`, hence the `% 256`) or fail
with an underrun. -/
def ser_readdata8 : List Nat → Except SerErr (Nat × List Nat)
  | [] => .error .underrun
  | b :: rest => .ok (b % 256, rest)

/-- `ser_readdata16`: read two bytes and assemble them little-endian
(`le16toh`); fewer than two bytes available is an underrun. -/
def ser_readdata16 : List Nat → Except SerErr (Nat × List Nat)
  | b0 :: b1 :: rest => .ok (b0 % 256 + 256 * (b1 % 256), rest)
  | _ => .error .underrun

/-- `ser_readdata32`: read four bytes and assemble them little-endian. -/
def ser_readdata32 : List Nat → Except SerErr (Nat × List Nat)
  | b0 :: b1 :: b2 :: b3 :: rest =>
    .ok (b0 % 256 + 256 * (b1 % 256) + 256 ^ 2 * (b2 % 256)
      + 256 ^ 3 * (b3 % 256), rest)
  | _ => .error .underrun

/-- `ser_readdata64`: read eight bytes and assemble them little-endian. -/
def ser_readdata64 : List Nat → Except SerErr (Nat × List Nat)
  | b0 :: b1 :: b2 :: b3 :: b4 :: b5 :: b6 :: b7 :: rest =>
    .ok (b0 % 256 + 256 * (b1 % 256) + 256 ^ 2 * (b2 % 256)
      + 256 ^ 3 * (b3 % 256) + 256 ^ 4 * (b4 % 256) + 256 ^ 5 * (b5 % 256)
      + 256 ^ 6 * (b6 % 256) + 256 ^ 7 * (b7 % 256), rest)
  | _ => .error .underrun

/-! ## CompactSize codec -/

/-- `MAX_SIZE = std::numeric_limits<uint32_t>::max()`. -/
def MAX_SIZE : Nat := 4294967295

/-- `GetSizeOfCompactSize`. -/
def GetSizeOfCompactSize (nSize : Nat) : Nat :=
  if nSize < 253 then 1
  else if nSize ≤ 65535 then 1 + 2
  else if nSize ≤ 4294967295 then 1 + 4
  else 1 + 8

/-- `WriteCompactSize` to a real stream: fails with `sizeTooLarge` above
`MAX_SIZE`, otherwise emits the 1/3/5/9-byte form (the 9-byte branch is
kept from the source even though the initial check makes it dead). -/
def WriteCompactSize (nSize : Nat) : Except SerErr (List Nat) :=
  if nSize > MAX_SIZE then .error .sizeTooLarge
  else if nSize < 253 then .ok (ser_writedata8 nSize)
  else if nSize ≤ 65535 then .ok (ser_writedata8 253 ++ ser_writedata16 nSize)
  else if nSize ≤ 4294967295 then .ok (ser_writedata8 254 ++ ser_writedata32 nSize)
  else .ok (ser_writedata8 255 ++ ser_writedata64 nSize)

/-- The four branches of `ReadCompactSize` on the marker byte `chSize`:
direct value below 253, or a 2/4/8-byte payload checked for canonicality. -/
def ReadCompactSizeBody (chSize : Nat) (is : List Nat) :
    Except SerErr (Nat × List Nat) :=
  if chSize < 253 then .ok (chSize, is)
  else if chSize = 253 then
    match ser_readdata16 is with
    | .error e => .error e
    | .ok (n, is) => if n < 253 then .error .nonCanonical else .ok (n, is)
  else if chSize = 254 then
    match ser_readdata32 is with
    | .error e => .error e
    | .ok (n, is) => if n < 65536 then .error .nonCanonical else .ok (n, is)
  else
    match ser_readdata64 is with
    | .error e => .error e
    | .ok (n, is) =>
      if n < 4294967296 then .error .nonCanonical else .ok (n, is)

/-- `ReadCompactSize`: reads the marker byte, then the payload of the
selected width, rejecting non-canonical forms and sizes above `MAX_SIZE`. -/
def ReadCompactSize (is : List Nat) : Except SerErr (Nat × List Nat) :=
  match ser_readdata8 is with
  | .error e => .error e
  | .ok (chSize, is) =>
    match ReadCompactSizeBody chSize is with
    | .error e => .error e
    | .ok (nSizeRet, is) =>
      if nSizeRet > MAX_SIZE then .error .sizeTooLarge else .ok (nSizeRet, is)

/-! ## VarInt codec

`WriteVarInt` in the source fills a buffer `tmp` with the base-128 groups
least-significant first — `tmp[0] = n & 0x7F` with no continuation bit,
every later group `(n & 0x7F) | 0x80` with `n := (n >> 7) - 1` in between —
and then emits `tmp` in reverse order.  The structural recursion below emits
the same bytes most-significant first; the `cont` flag plays the role of
`len != 0`, i.e. whether the group being emitted is followed by another
group and so carries the `0x80` continuation bit. -/

/-- The group list of `WriteVarInt` (see module note above): most-significant
group first, `0x80` set on every group except the last of the whole
encoding. -/
def WriteVarIntAux (n : Nat) (cont : Bool) : List Nat :=
  (if h : 128 ≤ n then WriteVarIntAux (n / 128 - 1) true else []) ++
    [n % 128 + if cont then 128 else 0]
termination_by n
decreasing_by
  have h2 : 1 ≤ n / 128 := (Nat.one_le_div_iff (by omega)).mpr h
  omega

/-- `WriteVarInt` for an unsigned integer value `n`. -/
def WriteVarInt (n : Nat) : List Nat := WriteVarIntAux n false

/-- `GetSizeOfVarInt`: the loop `nRet++; if (n <= 0x7F) return; n = (n >> 7) - 1`. -/
def GetSizeOfVarInt (n : Nat) : Nat :=
  if h : 128 ≤ n then 1 + GetSizeOfVarInt (n / 128 - 1) else 1
termination_by n
decreasing_by
  have h2 : 1 ≤ n / 128 := (Nat.one_le_div_iff (by omega)).mpr h
  omega

/-- `maxSize` in `ReadVarInt`: `(sizeof(uintmax_t) * 8 + 6) / 7 = 10`, the
bound on loop iterations (the accumulator `n` is a `uintmax_t`). -/
def varIntMaxSize : Nat := 10

/-- The `overflow` constant of `ReadVarInt` for a target type of bit width
`w`: `std::numeric_limits<I>::max() >> 7`. -/
def varIntOverflow (w : Nat) : Nat := (2 ^ w - 1) / 128

/-- The loop of `ReadVarInt`, with `fuel` the remaining iterations out of
`maxSize` and `n` the accumulator.  Each iteration first checks
`n > overflow`, then reads a byte `chData` and folds it in with
`n = (n << 7) | (chData & 0x7F)` — written `n * 128 + chData % 128`, equal
to the bitwise form because the low 7 bits of `n * 128` are zero — and
returns on a clear high bit, otherwise increments `n` and continues.
Exhausted fuel is the fall-through `throw` after the loop. -/
def ReadVarIntLoop (ov : Nat) : Nat → Nat → List Nat →
    Except SerErr (Nat × List Nat)
  | 0, _, _ => .error .varIntDeserError
  | _ + 1, n, [] => if n > ov then .error .varIntDeserError else .error .underrun
  | fuel + 1, n, b :: rest =>
    if n > ov then .error .varIntDeserError
    else
      let chData := b % 256
      if chData < 128 then .ok (n * 128 + chData % 128, rest)
      else ReadVarIntLoop ov fuel (n * 128 + chData % 128 + 1) rest

/-- `ReadVarInt` for a target type whose `overflow` constant is `ov`. -/
def ReadVarInt (ov : Nat) (is : List Nat) : Except SerErr (Nat × List Nat) :=
  ReadVarIntLoop ov varIntMaxSize 0 is

/-! ## Chunked sequence decoders (`Unserialize_impl` for vector/prevector)

The two `Unserialize_impl` overloads decode `CompactSize(length)` followed
by the elements, growing the destination in bounded chunks: the chunk byte
budget starts at `STARTING_CHUNK_SIZE` and is multiplied by
`CHUNK_GROWTH_RATE` after each chunk.  The flat overload (selected for
`uint8_t` elements, so `sizeof(T) = 1`) resizes and then block-reads each
chunk; the element-wise overload resizes to each chunk boundary and then
decodes elements one by one into the new slots.  Both are modelled with
the destination state exposed, so that the contents of the destination at
the moment an error propagates can be stated: the loop results carry the
destination, the loop index, the unread source and an optional error. -/

/-- `constexpr size_t STARTING_CHUNK_SIZE = 16000000`. -/
def STARTING_CHUNK_SIZE : Nat := 16000000

/-- `constexpr size_t CHUNK_GROWTH_RATE = 3`. -/
def CHUNK_GROWTH_RATE : Nat := 3

/-- The loop of the flat (`uint8_t`, `sizeof(T) = 1`) vector
`Unserialize_impl`: while `i < nSize`, take
`blk = min(nSize - i, 1 + (chunkSize - 1) / sizeof(T))`, grow the chunk
budget, `v.resize(i + blk)` (new slots value-initialised to 0), then
block-read `blk` bytes — the stream checks availability and throws the
underrun before copying, leaving the resized destination in place.
Returns the destination, the unread source and an optional error. -/
def unserializeFlatLoop (nSize : Nat) (i chunkSize : Nat) (v is : List Nat) :
    List Nat × List Nat × Option SerErr :=
  if h : i < nSize then
    let blk := min (nSize - i) (1 + (chunkSize - 1) / 1)
    if blk ≤ is.length then
      unserializeFlatLoop nSize (i + blk) (chunkSize * CHUNK_GROWTH_RATE)
        (v ++ is.take blk) (is.drop blk)
    else (v ++ List.replicate blk 0, is, some .underrun)
  else (v, is, none)
termination_by nSize - i
decreasing_by
  have hblk : 1 ≤ min (nSize - i) (1 + (chunkSize - 1) / 1) := by
    refine le_min (by omega) (by omega)
  omega

/-- The flat vector `Unserialize_impl` (`std::vector` with `uint8_t`
elements): `v.clear()`, `ReadCompactSize`, then the chunked block-read
loop.  `vPrior` is the destination's prior contents, discarded by the
`clear`. -/
def UnserializeVectorFlat (vPrior : List Nat) (is : List Nat) :
    List Nat × List Nat × Option SerErr :=
  let v : List Nat := []
  match ReadCompactSize is with
  | .error e => (v, is, some e)
  | .ok (nSize, is1) => unserializeFlatLoop nSize 0 STARTING_CHUNK_SIZE v is1

/-- The inner element loop of the element-wise `Unserialize_impl`:
`for (; i < nMid; i++) Unserialize(is, v[i])`, decoding one element into
each slot of the freshly resized region.  Returns the destination, the
final loop index, the unread source and an optional error. -/
def unserializeElemChunk {α : Type} (dec : List Nat → Except SerErr (α × List Nat))
    (v : List α) (i nMid : Nat) (is : List Nat) :
    List α × Nat × List Nat × Option SerErr :=
  if h : i < nMid then
    match dec is with
    | .error e => (v, i, is, some e)
    | .ok (x, is2) => unserializeElemChunk dec (v.set i x) (i + 1) nMid is2
  else (v, i, is, none)
termination_by nMid - i

/-- The outer loop of the element-wise `Unserialize_impl`: while
`nMid < nSize`, advance `nMid` by `min(nSize, 1 + (chunkSize - 1) / sizeof(T))`,
grow the chunk budget, clamp `nMid` to `nSize`, `v.resize(nMid)` (new
slots value-initialised to `default`), then run the inner element loop up
to the new boundary. -/
def unserializeElemLoop {α : Type} (dec : List Nat → Except SerErr (α × List Nat))
    (default : α) (szT nSize : Nat) (v : List α) (i nMid chunkSize : Nat)
    (is : List Nat) : List α × Nat × List Nat × Option SerErr :=
  if h : nMid < nSize then
    let nMid2 := nMid + min nSize (1 + (chunkSize - 1) / szT)
    let nMid3 := if nMid2 > nSize then nSize else nMid2
    let v2 := v ++ List.replicate (nMid3 - v.length) default
    match unserializeElemChunk dec v2 i nMid3 is with
    | (v3, i3, is3, some e) => (v3, i3, is3, some e)
    | (v3, i3, is3, none) =>
      unserializeElemLoop dec default szT nSize v3 i3 nMid3
        (chunkSize * CHUNK_GROWTH_RATE) is3
  else (v, i, is, none)
termination_by nSize - nMid
decreasing_by
  have h1 : 1 ≤ min nSize (1 + (chunkSize - 1) / szT) :=
    le_min (by omega) (Nat.le_add_right 1 _)
  split <;> omega

/-- The element-wise vector `Unserialize_impl`: `v.clear()`,
`ReadCompactSize`, then the chunked element-decode loop.  `dec` is the
element type's `Unserialize`, `default` its value-initialised state, `szT`
its `sizeof`.  `vPrior` is the destination's prior contents, discarded by
the `clear`. -/
def UnserializeVectorElem {α : Type} (dec : List Nat → Except SerErr (α × List Nat))
    (default : α) (szT : Nat) (vPrior : List α) (is : List Nat) :
    List α × Nat × List Nat × Option SerErr :=
  let v : List α := []
  match ReadCompactSize is with
  | .error e => (v, 0, is, some e)
  | .ok (nSize, is1) => unserializeElemLoop dec default szT nSize v 0 0 STARTING_CHUNK_SIZE is1

/-- The flat prevector `Unserialize_impl`: body identical to the
`std::vector` flat overload (the source duplicates the code for
`prevector<N, T>`, whose element contents behave identically). -/
def UnserializePrevectorFlat (vPrior : List Nat) (is : List Nat) :
    List Nat × List Nat × Option SerErr :=
  let v : List Nat := []
  match ReadCompactSize is with
  | .error e => (v, is, some e)
  | .ok (nSize, is1) => unserializeFlatLoop nSize 0 STARTING_CHUNK_SIZE v is1

/-- The element-wise prevector `Unserialize_impl`: body identical to the
`std::vector` element-wise overload. -/
def UnserializePrevectorElem {α : Type} (dec : List Nat → Except SerErr (α × List Nat))
    (default : α) (szT : Nat) (vPrior : List α) (is : List Nat) :
    List α × Nat × List Nat × Option SerErr :=
  let v : List α := []
  match ReadCompactSize is with
  | .error e => (v, 0, is, some e)
  | .ok (nSize, is1) => unserializeElemLoop dec default szT nSize v 0 0 STARTING_CHUNK_SIZE is1

/-- The sequence of `v.resize` arguments of the flat `Unserialize_impl`
loop, as a function of element size and declared length: each boundary is
`i + min(nSize - i, 1 + (chunkSize - 1) / sizeof(T))` with the budget
growing by `CHUNK_GROWTH_RATE` between chunks. -/
def flatResizeBoundaries (szT nSize i chunkSize : Nat) : List Nat :=
  if h : i < nSize then
    let blk := min (nSize - i) (1 + (chunkSize - 1) / szT)
    (i + blk) :: flatResizeBoundaries szT nSize (i + blk) (chunkSize * CHUNK_GROWTH_RATE)
  else []
termination_by nSize - i
decreasing_by
  have hblk : 1 ≤ min (nSize - i) (1 + (chunkSize - 1) / szT) :=
    le_min (by omega) (Nat.le_add_right 1 _)
  omega

/-- The sequence of `v.resize` arguments of the element-wise
`Unserialize_impl` loop: each boundary is
`nMid + min(nSize, 1 + (chunkSize - 1) / sizeof(T))` clamped to `nSize`,
with the budget growing by `CHUNK_GROWTH_RATE` between chunks. -/
def elemResizeBoundaries (szT nSize nMid chunkSize : Nat) : List Nat :=
  if h : nMid < nSize then
    let nMid2 := nMid + min nSize (1 + (chunkSize - 1) / szT)
    let nMid3 := if nMid2 > nSize then nSize else nMid2
    nMid3 :: elemResizeBoundaries szT nSize nMid3 (chunkSize * CHUNK_GROWTH_RATE)
  else []
termination_by nSize - nMid
decreasing_by
  have h1 : 1 ≤ min nSize (1 + (chunkSize - 1) / szT) :=
    le_min (by omega) (Nat.le_add_right 1 _)
  split <;> omega

/-! ## Associative decoders (`Unserialize` for `std::map` / `std::set`)

`std::map`/`std::set` are modelled as association/element lists in
insertion order; the ordering predicate only determines key equivalence
here (modelled as equality, the equivalence induced by the default
predicate), which is what hinted insertion consults.  `insert(hint, x)`
inserts if and only if no element with an equivalent key is present, so a
present key is kept and the new element discarded. -/

/-- `std::map::insert(hint, item)`: insert only if the key is absent. -/
def mapInsertHinted {K V : Type} [DecidableEq K] (m : List (K × V))
    (item : K × V) : List (K × V) :=
  if m.any (fun p => p.1 = item.1) then m else m ++ [item]

/-- `std::map::find`-style lookup: the value of the unique element with
the given key. -/
def mapLookup {K V : Type} [DecidableEq K] (m : List (K × V)) (k : K) :
    Option V :=
  (m.find? (fun p => p.1 = k)).map Prod.snd

/-- `std::set::insert(hint, key)`: insert only if the key is absent. -/
def setInsertHinted {K : Type} [DecidableEq K] (s : List K) (key : K) :
    List K :=
  if s.any (fun x => x = key) then s else s ++ [key]

/-- The loop of the `std::map` `Unserialize`: `nSize` iterations, each
deserialising a `std::pair<K, T>` (first component, then second) and
inserting it with the hinted insert. -/
def UnserializeMapLoop {K V : Type} [DecidableEq K]
    (decK : List Nat → Except SerErr (K × List Nat))
    (decV : List Nat → Except SerErr (V × List Nat)) :
    Nat → List (K × V) → List Nat → Except SerErr (List (K × V) × List Nat)
  | 0, m, is => .ok (m, is)
  | n + 1, m, is =>
    match decK is with
    | .error e => .error e
    | .ok (k, is1) =>
      match decV is1 with
      | .error e => .error e
      | .ok (v, is2) => UnserializeMapLoop decK decV n (mapInsertHinted m (k, v)) is2

/-- The `std::map` `Unserialize`: `m.clear()`, `ReadCompactSize`, then the
pair-insertion loop.  `mPrior` is the destination's prior contents,
discarded by the `clear`. -/
def UnserializeMap {K V : Type} [DecidableEq K]
    (decK : List Nat → Except SerErr (K × List Nat))
    (decV : List Nat → Except SerErr (V × List Nat))
    (mPrior : List (K × V)) (is : List Nat) :
    Except SerErr (List (K × V) × List Nat) :=
  let m : List (K × V) := []
  match ReadCompactSize is with
  | .error e => .error e
  | .ok (nSize, is1) => UnserializeMapLoop decK decV nSize m is1

/-- The loop of the `std::set` `Unserialize`: `nSize` iterations, each
deserialising a key and inserting it with the hinted insert. -/
def UnserializeSetLoop {K : Type} [DecidableEq K]
    (decK : List Nat → Except SerErr (K × List Nat)) :
    Nat → List K → List Nat → Except SerErr (List K × List Nat)
  | 0, s, is => .ok (s, is)
  | n + 1, s, is =>
    match decK is with
    | .error e => .error e
    | .ok (key, is1) => UnserializeSetLoop decK n (setInsertHinted s key) is1

/-- The `std::set` `Unserialize`: `m.clear()`, `ReadCompactSize`, then the
key-insertion loop.  `sPrior` is the destination's prior contents,
discarded by the `clear`. -/
def UnserializeSet {K : Type} [DecidableEq K]
    (decK : List Nat → Except SerErr (K × List Nat))
    (sPrior : List K) (is : List Nat) : Except SerErr (List K × List Nat) :=
  let s : List K := []
  match ReadCompactSize is with
  | .error e => .error e
  | .ok (nSize, is1) => UnserializeSetLoop decK nSize s is1

/-- Plain decode of `n` wire pairs into a list, in wire order (no
insertion policy applied); used to state what is on the wire. -/
def DecodePairs {K V : Type}
    (decK : List Nat → Except SerErr (K × List Nat))
    (decV : List Nat → Except SerErr (V × List Nat)) :
    Nat → List Nat → Except SerErr (List (K × V) × List Nat)
  | 0, is => .ok ([], is)
  | n + 1, is =>
    match decK is with
    | .error e => .error e
    | .ok (k, is1) =>
      match decV is1 with
      | .error e => .error e
      | .ok (v, is2) =>
        match DecodePairs decK decV n is2 with
        | .error e => .error e
        | .ok (ps, is3) => .ok ((k, v) :: ps, is3)

/-- Plain decode of `n` wire keys into a list, in wire order. -/
def DecodeKeys {K : Type} (decK : List Nat → Except SerErr (K × List Nat)) :
    Nat → List Nat → Except SerErr (List K × List Nat)
  | 0, is => .ok ([], is)
  | n + 1, is =>
    match decK is with
    | .error e => .error e
    | .ok (k, is1) =>
      match DecodeKeys decK n is1 with
      | .error e => .error e
      | .ok (ks, is2) => .ok (k :: ks, is2)

/-! ## Serializable values and the size-computation pass (`CSizeComputer`)

A closed universe of serializable values covering the codecs of the
header: fixed-width integers, bool, the `CCompactSize` and `CVarInt`
wrappers (64-bit target), byte vectors (the flat path), element-wise
vectors and pairs.  `SerializeValue` is serialization into a real byte
sink; `SerSizeValue` is serialization into a `CSizeComputer`, whose
`write` only adds the length to the tally and whose specialised
`WriteVarInt` / `WriteCompactSize` overloads `seek` by `GetSizeOfVarInt` /
`GetSizeOfCompactSize` instead of writing (in particular the
`CSizeComputer` path never fails). -/

/-- A serializable value. -/
inductive SerValue where
  /-- `uint8_t`. -/
  | u8 (n : Nat) : SerValue
  /-- `uint16_t`. -/
  | u16 (n : Nat) : SerValue
  /-- `uint32_t`. -/
  | u32 (n : Nat) : SerValue
  /-- `uint64_t`. -/
  | u64 (n : Nat) : SerValue
  /-- `bool`, one byte. -/
  | boolean (b : Bool) : SerValue
  /-- A `uint64_t` serialized through `CCompactSize`. -/
  | compactSize (n : Nat) : SerValue
  /-- A `uint64_t` serialized through `CVarInt`. -/
  | varInt (n : Nat) : SerValue
  /-- `std::vector<uint8_t>`: `CompactSize(length)` + raw bytes. -/
  | byteVec (l : List Nat) : SerValue
  /-- A vector of serializable elements: `CompactSize(length)` +
  element-wise serialization. -/
  | genVec (l : List SerValue) : SerValue
  /-- `std::pair`: first then second. -/
  | pairVal (a b : SerValue) : SerValue

mutual

/-- Serialization into a real byte sink (`Serialize` overloads composed
with `WriteCompactSize`/`WriteVarInt`). -/
def SerializeValue : SerValue → Except SerErr (List Nat)
  | .u8 n => .ok (ser_writedata8 n)
  | .u16 n => .ok (ser_writedata16 n)
  | .u32 n => .ok (ser_writedata32 n)
  | .u64 n => .ok (ser_writedata64 n)
  | .boolean b => .ok (ser_writedata8 (if b then 1 else 0))
  | .compactSize n => WriteCompactSize n
  | .varInt n => .ok (WriteVarInt n)
  | .byteVec l =>
    match WriteCompactSize l.length with
    | .error e => .error e
    | .ok pre => .ok (pre ++ l.map (fun b => b % 256))
  | .genVec l =>
    match WriteCompactSize l.length with
    | .error e => .error e
    | .ok pre =>
      match SerializeValueList l with
      | .error e => .error e
      | .ok body => .ok (pre ++ body)
  | .pairVal a b =>
    match SerializeValue a with
    | .error e => .error e
    | .ok ba =>
      match SerializeValue b with
      | .error e => .error e
      | .ok bb => .ok (ba ++ bb)

/-- Element-wise serialization of a list of values. -/
def SerializeValueList : List SerValue → Except SerErr (List Nat)
  | [] => .ok []
  | v :: vs =>
    match SerializeValue v with
    | .error e => .error e
    | .ok bv =>
      match SerializeValueList vs with
      | .error e => .error e
      | .ok bvs => .ok (bv ++ bvs)

end

mutual

/-- The tally of serializing into a `CSizeComputer` (its `write` adds the
byte count; its `WriteCompactSize`/`WriteVarInt` overloads seek by
`GetSizeOfCompactSize`/`GetSizeOfVarInt`). -/
def SerSizeValue : SerValue → Nat
  | .u8 _ => 1
  | .u16 _ => 2
  | .u32 _ => 4
  | .u64 _ => 8
  | .boolean _ => 1
  | .compactSize n => GetSizeOfCompactSize n
  | .varInt n => GetSizeOfVarInt n
  | .byteVec l => GetSizeOfCompactSize l.length + l.length
  | .genVec l => GetSizeOfCompactSize l.length + SerSizeValueList l
  | .pairVal a b => SerSizeValue a + SerSizeValue b

/-- Element-wise tally of a list of values. -/
def SerSizeValueList : List SerValue → Nat
  | [] => 0
  | v :: vs => SerSizeValue v + SerSizeValueList vs

end

/-- `GetSerializeSize`: the size of a fresh `CSizeComputer` after
streaming the value into it. -/
def GetSerializeSize (v : SerValue) : Nat := SerSizeValue v

/-! ## CompactSize: canonical table and rejection of non-canonical forms -/

/-- Reading back a 2-byte little-endian write recovers the value modulo
`2 ^ 16`. -/
theorem ser_readdata16_writedata16 (n : Nat) (r : List Nat) :
    ser_readdata16 (ser_writedata16 n ++ r) = .ok (n % 65536, r) := by
  simp only [ser_writedata16, ser_readdata16, List.cons_append, List.nil_append]
  congr 2
  omega

/-- Reading back a 4-byte little-endian write recovers the value modulo
`2 ^ 32`. -/
theorem ser_readdata32_writedata32 (n : Nat) (r : List Nat) :
    ser_readdata32 (ser_writedata32 n ++ r) = .ok (n % 4294967296, r) := by
  simp only [ser_writedata32, ser_readdata32, List.cons_append, List.nil_append]
  congr 2
  omega

/-- Reading back an 8-byte little-endian write recovers the value modulo
`2 ^ 64`. -/
theorem ser_readdata64_writedata64 (n : Nat) (r : List Nat) :
    ser_readdata64 (ser_writedata64 n ++ r) = .ok (n % 18446744073709551616, r) := by
  simp only [ser_writedata64, ser_readdata64, List.cons_append, List.nil_append]
  congr 2
  omega

/-- C1: `WriteCompactSize` produces exactly the spec-table bytes at 0, 252,
253, 65535 and 65536, and `ReadCompactSize` rejects every non-canonical
form: a 253 marker with any payload below 253, a 254 marker with any
payload below `2 ^ 16`, a 255 marker with any payload below `2 ^ 32`; in
particular the 3-byte encoding `[0xFD, 0x00, 0x00]` of 0 fails with the
non-canonical-encoding error. -/
theorem compactSize_canonical_table_and_rejection :
    WriteCompactSize 0 = .ok [0] ∧
    WriteCompactSize 252 = .ok [252] ∧
    WriteCompactSize 253 = .ok [253, 253, 0] ∧
    WriteCompactSize 65535 = .ok [253, 255, 255] ∧
    WriteCompactSize 65536 = .ok [254, 0, 0, 1, 0] ∧
    (∀ p r, p < 253 →
      ReadCompactSize (253 :: (ser_writedata16 p ++ r)) = .error .nonCanonical) ∧
    (∀ p r, p < 65536 →
      ReadCompactSize (254 :: (ser_writedata32 p ++ r)) = .error .nonCanonical) ∧
    (∀ p r, p < 4294967296 →
      ReadCompactSize (255 :: (ser_writedata64 p ++ r)) = .error .nonCanonical) ∧
    ReadCompactSize [253, 0, 0] = .error .nonCanonical := by
  refine ⟨by rfl, by rfl, by rfl, by rfl, by rfl, ?_, ?_, ?_, by rfl⟩
  · intro p r hp
    have hmod : p % 65536 = p := Nat.mod_eq_of_lt (by omega)
    simp [ReadCompactSize, ser_readdata8, ReadCompactSizeBody,
      ser_readdata16_writedata16, hmod, hp]
  · intro p r hp
    have hmod : p % 4294967296 = p := Nat.mod_eq_of_lt (by omega)
    simp [ReadCompactSize, ser_readdata8, ReadCompactSizeBody,
      ser_readdata32_writedata32, hmod, hp]
  · intro p r hp
    have hmod : p % 18446744073709551616 = p := Nat.mod_eq_of_lt (by omega)
    simp [ReadCompactSize, ser_readdata8, ReadCompactSizeBody,
      ser_readdata64_writedata64, hmod, hp]

/-- Witness for `compactSize_canonical_table_and_rejection` at concrete
payloads 0 (marker 253), 1 (marker 254) and 2 (marker 255). -/
theorem compactSize_canonical_table_and_rejection_witness :
    ReadCompactSize [253, 0, 0] = .error .nonCanonical ∧
    ReadCompactSize [254, 1, 0, 0, 0] = .error .nonCanonical ∧
    ReadCompactSize [255, 2, 0, 0, 0, 0, 0, 0, 0] = .error .nonCanonical := by
  obtain ⟨-, -, -, -, -, h253, h254, h255, -⟩ :=
    compactSize_canonical_table_and_rejection
  exact ⟨h253 0 [] (by decide), h254 1 [] (by decide), h255 2 [] (by decide)⟩

/-! ## CompactSize: the `MAX_SIZE` ceiling on both directions -/

/-- Every successful `ReadCompactSize` returns a value at most
`MAX_SIZE`: the final ceiling check guards every marker branch. -/
theorem readCompactSize_le_max_size (is : List Nat) (n : Nat) (rest : List Nat)
    (h : ReadCompactSize is = .ok (n, rest)) : n ≤ MAX_SIZE := by
  unfold ReadCompactSize at h
  cases h8 : ser_readdata8 is with
  | error e => rw [h8] at h; exact absurd h (by simp)
  | ok p =>
    obtain ⟨ch, is1⟩ := p
    rw [h8] at h
    dsimp only at h
    cases hb : ReadCompactSizeBody ch is1 with
    | error e => rw [hb] at h; exact absurd h (by simp)
    | ok q =>
      obtain ⟨m, is2⟩ := q
      rw [hb] at h
      dsimp only at h
      by_cases hm : m > MAX_SIZE
      · rw [if_pos hm] at h; exact absurd h (by simp)
      · rw [if_neg hm] at h
        obtain ⟨rfl, -⟩ := Prod.mk.injEq .. ▸ Except.ok.inj h
        omega

/-- A 255-marker payload above the ceiling passes the canonicality check
and then fails with the size-too-large error. -/
theorem readCompactSize_marker255_above_ceiling (v : Nat) (r : List Nat)
    (h1 : MAX_SIZE < v) (h2 : v < 18446744073709551616) :
    ReadCompactSize (255 :: (ser_writedata64 v ++ r)) = .error .sizeTooLarge := by
  have hmod : v % 18446744073709551616 = v := Nat.mod_eq_of_lt h2
  have hge : ¬ v < 4294967296 := by unfold MAX_SIZE at h1; omega
  have hgt : v > MAX_SIZE := h1
  simp [ReadCompactSize, ser_readdata8, ReadCompactSizeBody,
    ser_readdata64_writedata64, hmod, hge, hgt]

/-- C6: the CompactSize codec enforces the fixed ceiling
`MAX_SIZE = 2 ^ 32 - 1` in both directions.  Every successful
`ReadCompactSize` returns a value at most the ceiling (so a decoded value
above it fails whatever the marker); a 255-marker payload above the ceiling
passes the canonicality check and then fails with the size-too-large error;
`WriteCompactSize` fails with the same error on every value above the
ceiling instead of emitting the 9-byte form, and succeeds on every value up
to the ceiling, so the size-too-large case is the only encode-side
failure. -/
theorem compactSize_max_size_ceiling :
    (∀ is n rest, ReadCompactSize is = .ok (n, rest) → n ≤ MAX_SIZE) ∧
    (∀ v r, MAX_SIZE < v → v < 18446744073709551616 →
      ReadCompactSize (255 :: (ser_writedata64 v ++ r)) = .error .sizeTooLarge) ∧
    (∀ n, MAX_SIZE < n → WriteCompactSize n = .error .sizeTooLarge) ∧
    (∀ n, n ≤ MAX_SIZE → ∃ bs, WriteCompactSize n = .ok bs) := by
  refine ⟨fun is n rest h => readCompactSize_le_max_size is n rest h,
    fun v r h1 h2 => readCompactSize_marker255_above_ceiling v r h1 h2, ?_, ?_⟩
  · intro n h
    unfold WriteCompactSize
    rw [if_pos h]
  · intro n h
    unfold WriteCompactSize
    split_ifs with h1 h2 h3 h4
    · omega
    all_goals exact ⟨_, rfl⟩

/-- Witness for `compactSize_max_size_ceiling`: the ceiling checks at the
concrete values `2 ^ 32` (decode of its 9-byte form, encode) and
`2 ^ 32 - 1` (encode succeeds). -/
theorem compactSize_max_size_ceiling_witness :
    ReadCompactSize [255, 0, 0, 0, 0, 1, 0, 0, 0] = .error .sizeTooLarge ∧
    WriteCompactSize 4294967296 = .error .sizeTooLarge ∧
    ∃ bs, WriteCompactSize 4294967295 = .ok bs := by
  obtain ⟨-, hread, hwrite, hok⟩ := compactSize_max_size_ceiling
  refine ⟨?_, hwrite 4294967296 (by decide), hok 4294967295 (by decide)⟩
  have h := hread 4294967296 [] (by decide) (by decide)
  simpa [ser_writedata64] using h

/-! ## VarInt: length, encode/decode lemmas -/

/-- The group list of `WriteVarInt` has exactly `GetSizeOfVarInt n` bytes. -/
theorem writeVarIntAux_length (n : Nat) (cont : Bool) :
    (WriteVarIntAux n cont).length = GetSizeOfVarInt n := by
  rw [WriteVarIntAux, GetSizeOfVarInt]
  by_cases h : 128 ≤ n
  · rw [dif_pos h, dif_pos h]
    simp [writeVarIntAux_length (n / 128 - 1) true, Nat.add_comm]
  · rw [dif_neg h, dif_neg h]
    simp
termination_by n
decreasing_by omega

/-- `WriteVarInt` output length equals `GetSizeOfVarInt`. -/
theorem writeVarInt_length (n : Nat) :
    (WriteVarInt n).length = GetSizeOfVarInt n :=
  writeVarIntAux_length n false

/-- Values below `128 ^ (k + 1)` take at most `k + 1` VarInt groups. -/
theorem getSizeOfVarInt_le (k : Nat) : ∀ n, n < 128 ^ (k + 1) →
    GetSizeOfVarInt n ≤ k + 1 := by
  induction k with
  | zero =>
    intro n h
    rw [GetSizeOfVarInt, dif_neg (by simpa using h)]
  | succ k IH =>
    intro n h
    by_cases hn : 128 ≤ n
    · rw [GetSizeOfVarInt, dif_pos hn]
      have hdiv : n / 128 - 1 < 128 ^ (k + 1) := by
        have h2 : n < 128 * 128 ^ (k + 1) := by
          calc n < 128 ^ (k + 2) := h
          _ = 128 * 128 ^ (k + 1) := by ring
        have h3 : n / 128 < 128 ^ (k + 1) := Nat.div_lt_of_lt_mul h2
        omega
      have := IH (n / 128 - 1) hdiv
      omega
    · rw [GetSizeOfVarInt, dif_neg hn]
      omega

/-- Running the `ReadVarInt` loop over the continuation-group block of `n`
(every group carrying the `0x80` bit) advances the accumulator from `a` to
`a * 128 ^ len + n + 1` and consumes `len` fuel, provided the overflow
check passes at every group — which the stated bound guarantees. -/
theorem readVarIntLoop_writeAux (ov n a fuel : Nat) (rest : List Nat)
    (hbound : a * 128 ^ GetSizeOfVarInt n + n + 1 ≤ (ov + 1) * 128) :
    ReadVarIntLoop ov (GetSizeOfVarInt n + fuel) a (WriteVarIntAux n true ++ rest) =
      ReadVarIntLoop ov fuel (a * 128 ^ GetSizeOfVarInt n + n + 1) rest := by
  by_cases h128 : 128 ≤ n
  · have hL : GetSizeOfVarInt n = GetSizeOfVarInt (n / 128 - 1) + 1 := by
      rw [GetSizeOfVarInt, dif_pos h128]; omega
    have hW : WriteVarIntAux n true =
        WriteVarIntAux (n / 128 - 1) true ++ [n % 128 + 128] := by
      rw [WriteVarIntAux, dif_pos h128]; simp
    have hpow : a * 128 ^ GetSizeOfVarInt n
        = 128 * (a * 128 ^ GetSizeOfVarInt (n / 128 - 1)) := by
      rw [hL, pow_succ]; ring
    have hXb : 128 * (a * 128 ^ GetSizeOfVarInt (n / 128 - 1)) + n + 1
        ≤ (ov + 1) * 128 := by rw [← hpow]; exact hbound
    have hsub : a * 128 ^ GetSizeOfVarInt (n / 128 - 1) + (n / 128 - 1) + 1
        ≤ (ov + 1) * 128 := by omega
    have hrec := readVarIntLoop_writeAux ov (n / 128 - 1) a (fuel + 1)
      ((n % 128 + 128) :: rest) hsub
    rw [hW, List.append_assoc, List.singleton_append, hL]
    have hfuel : GetSizeOfVarInt (n / 128 - 1) + 1 + fuel
        = GetSizeOfVarInt (n / 128 - 1) + (fuel + 1) := by omega
    rw [hfuel, hrec]
    have hacc : ¬ a * 128 ^ GetSizeOfVarInt (n / 128 - 1) + (n / 128 - 1) + 1 > ov := by
      omega
    have hbyte : (n % 128 + 128) % 256 = n % 128 + 128 := by omega
    simp only [ReadVarIntLoop, hbyte, if_neg hacc]
    rw [if_neg (by omega)]
    congr 1
    have hpow2 : a * 128 ^ (GetSizeOfVarInt (n / 128 - 1) + 1)
        = 128 * (a * 128 ^ GetSizeOfVarInt (n / 128 - 1)) := by
      rw [pow_succ]; ring
    rw [hpow2]
    omega
  · have hL : GetSizeOfVarInt n = 1 := by rw [GetSizeOfVarInt, dif_neg h128]
    have hW : WriteVarIntAux n true = [n % 128 + 128] := by
      rw [WriteVarIntAux, dif_neg h128]; simp
    have hacc : ¬ a > ov := by
      have := hbound
      rw [hL] at this
      simp only [pow_one] at this
      omega
    have hbyte : (n % 128 + 128) % 256 = n % 128 + 128 := by omega
    rw [hW, hL, List.singleton_append, Nat.add_comm 1 fuel]
    simp only [ReadVarIntLoop, hbyte, if_neg hacc]
    rw [if_neg (by omega)]
    congr 1
    simp only [pow_one]
    omega
termination_by n
decreasing_by omega

/-- Unconditional version of `readVarIntLoop_writeAux`: over the
continuation-group block of `n` the loop either stops with the
deserialisation error (an overflow check fired) or advances the accumulator
to `a * 128 ^ len + n + 1`. -/
theorem readVarIntLoop_writeAux_or (ov n a fuel : Nat) (rest : List Nat) :
    ReadVarIntLoop ov (GetSizeOfVarInt n + fuel) a (WriteVarIntAux n true ++ rest)
      = .error .varIntDeserError ∨
    ReadVarIntLoop ov (GetSizeOfVarInt n + fuel) a (WriteVarIntAux n true ++ rest) =
      ReadVarIntLoop ov fuel (a * 128 ^ GetSizeOfVarInt n + n + 1) rest := by
  by_cases h128 : 128 ≤ n
  · have hL : GetSizeOfVarInt n = GetSizeOfVarInt (n / 128 - 1) + 1 := by
      rw [GetSizeOfVarInt, dif_pos h128]; omega
    have hW : WriteVarIntAux n true =
        WriteVarIntAux (n / 128 - 1) true ++ [n % 128 + 128] := by
      rw [WriteVarIntAux, dif_pos h128]; simp
    have hfuel : GetSizeOfVarInt (n / 128 - 1) + 1 + fuel
        = GetSizeOfVarInt (n / 128 - 1) + (fuel + 1) := by omega
    rw [hW, List.append_assoc, List.singleton_append, hL, hfuel]
    rcases readVarIntLoop_writeAux_or ov (n / 128 - 1) a (fuel + 1)
      ((n % 128 + 128) :: rest) with herr | hok
    · exact Or.inl herr
    · rw [hok]
      by_cases hacc : a * 128 ^ GetSizeOfVarInt (n / 128 - 1) + (n / 128 - 1) + 1 > ov
      · left
        simp only [ReadVarIntLoop, if_pos hacc]
      · right
        have hbyte : (n % 128 + 128) % 256 = n % 128 + 128 := by omega
        simp only [ReadVarIntLoop, hbyte, if_neg hacc]
        rw [if_neg (by omega)]
        congr 1
        have hpow2 : a * 128 ^ (GetSizeOfVarInt (n / 128 - 1) + 1)
            = 128 * (a * 128 ^ GetSizeOfVarInt (n / 128 - 1)) := by
          rw [pow_succ]; ring
        rw [hpow2]
        omega
  · have hL : GetSizeOfVarInt n = 1 := by rw [GetSizeOfVarInt, dif_neg h128]
    have hW : WriteVarIntAux n true = [n % 128 + 128] := by
      rw [WriteVarIntAux, dif_neg h128]; simp
    rw [hW, hL, List.singleton_append, Nat.add_comm 1 fuel]
    by_cases hacc : a > ov
    · left
      simp only [ReadVarIntLoop, if_pos hacc]
    · right
      have hbyte : (n % 128 + 128) % 256 = n % 128 + 128 := by omega
      simp only [ReadVarIntLoop, hbyte, if_neg hacc]
      rw [if_neg (by omega)]
      congr 1
      simp only [pow_one]
      omega
termination_by n
decreasing_by omega

/-- Decoding an encoded VarInt recovers the value and leaves the trailing
bytes, whenever the value fits the target range (`n ≤ 128 * ov + 127`) and
its group count fits the loop bound. -/
theorem readVarInt_writeVarInt (ov n : Nat) (rest : List Nat)
    (hn : n ≤ 128 * ov + 127) (hsz : GetSizeOfVarInt n ≤ varIntMaxSize) :
    ReadVarInt ov (WriteVarInt n ++ rest) = .ok (n, rest) := by
  by_cases h128 : 128 ≤ n
  · have hL : GetSizeOfVarInt n = GetSizeOfVarInt (n / 128 - 1) + 1 := by
      rw [GetSizeOfVarInt, dif_pos h128]; omega
    have hW : WriteVarInt n =
        WriteVarIntAux (n / 128 - 1) true ++ [n % 128] := by
      rw [WriteVarInt, WriteVarIntAux, dif_pos h128]; simp
    have hLle : GetSizeOfVarInt (n / 128 - 1) + 1 ≤ varIntMaxSize := hL ▸ hsz
    have hfuel : varIntMaxSize
        = GetSizeOfVarInt (n / 128 - 1) + (varIntMaxSize - GetSizeOfVarInt (n / 128 - 1)) := by
      omega
    rw [ReadVarInt, hW, List.append_assoc, List.singleton_append, hfuel]
    rw [readVarIntLoop_writeAux ov (n / 128 - 1) 0
      (varIntMaxSize - GetSizeOfVarInt (n / 128 - 1)) ((n % 128) :: rest)
      (by simp only [Nat.zero_mul, Nat.zero_add]; omega)]
    have hflsplit : varIntMaxSize - GetSizeOfVarInt (n / 128 - 1)
        = (varIntMaxSize - GetSizeOfVarInt (n / 128 - 1) - 1) + 1 := by omega
    rw [hflsplit]
    have hacc : ¬ 0 * 128 ^ GetSizeOfVarInt (n / 128 - 1) + (n / 128 - 1) + 1 > ov := by
      simp only [Nat.zero_mul, Nat.zero_add]
      omega
    have hbyte : n % 128 % 256 = n % 128 := by omega
    simp only [ReadVarIntLoop, hbyte, if_neg hacc]
    rw [if_pos (by omega)]
    congr 2
    simp only [Nat.zero_mul, Nat.zero_add]
    omega
  · have hW : WriteVarInt n = [n % 128] := by
      rw [WriteVarInt, WriteVarIntAux, dif_neg h128]; simp
    have hbyte : n % 128 % 256 = n % 128 := by omega
    rw [ReadVarInt, hW, List.singleton_append]
    show ReadVarIntLoop ov (9 + 1) 0 (n % 128 :: rest) = .ok (n, rest)
    simp only [ReadVarIntLoop, hbyte]
    rw [if_neg (by omega), if_pos (by omega)]
    congr 2
    omega

/-- For a target width of at least 7 bits, `128 * overflow + 127` is the
target maximum `2 ^ w - 1`. -/
theorem varIntOverflow_max (w : Nat) (h7 : 7 ≤ w) :
    128 * varIntOverflow w + 127 = 2 ^ w - 1 := by
  obtain ⟨k, hk⟩ : 128 ∣ 2 ^ w := by
    have : (2 : Nat) ^ 7 ∣ 2 ^ w := pow_dvd_pow 2 h7
    simpa using this
  have hk1 : 1 ≤ k := by
    rcases Nat.eq_zero_or_pos k with h0 | h1
    · exfalso; have := Nat.pos_pow_of_pos w (show 0 < 2 by omega); omega
    · exact h1
  unfold varIntOverflow
  omega

/-- Any value below `2 ^ 64` fits in at most `varIntMaxSize = 10` VarInt
groups. -/
theorem getSizeOfVarInt_le_ten (n : Nat) (h : n < 18446744073709551616) :
    GetSizeOfVarInt n ≤ varIntMaxSize := by
  have := getSizeOfVarInt_le 9 n (by omega)
  unfold varIntMaxSize
  omega

/-- C3: `WriteVarInt` matches the spec table at 0, 127, 128, 255 and 16511;
for every value in the 64-bit target range, decoding the encoding recovers
the value exactly (consuming exactly the encoded bytes), and therefore
re-encoding the decoded value reproduces byte-identical output. -/
theorem varInt_table_and_roundtrip :
    WriteVarInt 0 = [0x00] ∧
    WriteVarInt 127 = [0x7F] ∧
    WriteVarInt 128 = [0x80, 0x00] ∧
    WriteVarInt 255 = [0x80, 0x7F] ∧
    WriteVarInt 16511 = [0xFF, 0x7F] ∧
    (∀ n rest, n < 18446744073709551616 →
      ReadVarInt (varIntOverflow 64) (WriteVarInt n ++ rest) = .ok (n, rest)) ∧
    (∀ n d r, n < 18446744073709551616 →
      ReadVarInt (varIntOverflow 64) (WriteVarInt n) = .ok (d, r) →
      WriteVarInt d = WriteVarInt n) := by
  have hround : ∀ n rest, n < 18446744073709551616 →
      ReadVarInt (varIntOverflow 64) (WriteVarInt n ++ rest) = .ok (n, rest) := by
    intro n rest hn
    refine readVarInt_writeVarInt (varIntOverflow 64) n rest ?_ ?_
    · have := varIntOverflow_max 64 (by omega)
      omega
    · exact getSizeOfVarInt_le_ten n hn
  refine ⟨?_, ?_, ?_, ?_, ?_, hround, ?_⟩
  · rw [WriteVarInt, WriteVarIntAux, dif_neg (by omega)]; rfl
  · rw [WriteVarInt, WriteVarIntAux, dif_neg (by omega)]; rfl
  · rw [WriteVarInt, WriteVarIntAux, dif_pos (by omega),
      WriteVarIntAux, dif_neg (by omega)]
    rfl
  · rw [WriteVarInt, WriteVarIntAux, dif_pos (by omega),
      WriteVarIntAux, dif_neg (by omega)]
    rfl
  · rw [WriteVarInt, WriteVarIntAux, dif_pos (by omega),
      WriteVarIntAux, dif_neg (by omega)]
    rfl
  · intro n d r hn hdec
    have h := hround n [] hn
    rw [List.append_nil] at h
    rw [h] at hdec
    obtain ⟨rfl, -⟩ := Prod.mk.injEq .. ▸ Except.ok.inj hdec
    rfl

/-- Witness for `varInt_table_and_roundtrip`: the round trip at the table
value 16511 (two bytes, both groups exercised). -/
theorem varInt_table_and_roundtrip_witness :
    ReadVarInt (varIntOverflow 64) (WriteVarInt 16511 ++ [7]) = .ok (16511, [7]) :=
  varInt_table_and_roundtrip.2.2.2.2.2.1 16511 [7] (by omega)

/-! ## VarInt: bounded consumption and range errors (`ReadVarInt`) -/

/-- A successful run of the `ReadVarInt` loop consumes at most `fuel`
bytes. -/
theorem readVarIntLoop_consumption (ov : Nat) : ∀ fuel a bs n rest,
    ReadVarIntLoop ov fuel a bs = .ok (n, rest) →
    rest.length ≤ bs.length ∧ bs.length ≤ rest.length + fuel := by
  intro fuel
  induction fuel with
  | zero => intro a bs n rest h; exact absurd h (by simp [ReadVarIntLoop])
  | succ fuel IH =>
    intro a bs n rest h
    match bs with
    | [] =>
      rw [ReadVarIntLoop] at h
      split_ifs at h
    | b :: bs2 =>
      rw [ReadVarIntLoop] at h
      dsimp only at h
      split_ifs at h with h1 h2
      · obtain ⟨-, rfl⟩ := Prod.mk.injEq .. ▸ Except.ok.inj h
        simp
      · have := IH _ _ _ _ h
        simp only [List.length_cons]
        omega

/-- A successful run of the `ReadVarInt` loop returns a value of at most
`128 * overflow + 127`: the overflow check is made before folding in the
final group, so the result always fits the target type. -/
theorem readVarIntLoop_bound (ov : Nat) : ∀ fuel a bs n rest,
    ReadVarIntLoop ov fuel a bs = .ok (n, rest) → n ≤ 128 * ov + 127 := by
  intro fuel
  induction fuel with
  | zero => intro a bs n rest h; exact absurd h (by simp [ReadVarIntLoop])
  | succ fuel IH =>
    intro a bs n rest h
    match bs with
    | [] =>
      rw [ReadVarIntLoop] at h
      split_ifs at h
    | b :: bs2 =>
      rw [ReadVarIntLoop] at h
      dsimp only at h
      split_ifs at h with h1 h2
      · obtain ⟨rfl, -⟩ := Prod.mk.injEq .. ▸ Except.ok.inj h
        have : b % 256 % 128 ≤ 127 := by omega
        omega
      · exact IH _ _ _ _ h

/-- `fuel` consecutive continuation bytes (high bit set) exhaust the loop
bound, and the loop fails with the deserialisation error whatever the
overflow constant and accumulator. -/
theorem readVarIntLoop_replicate (ov : Nat) : ∀ fuel a bs,
    ReadVarIntLoop ov fuel a (List.replicate fuel 128 ++ bs)
      = .error .varIntDeserError := by
  intro fuel
  induction fuel with
  | zero => intro a bs; rw [ReadVarIntLoop]
  | succ fuel IH =>
    intro a bs
    rw [List.replicate_succ, List.cons_append, ReadVarIntLoop]
    dsimp only
    split_ifs with h1 h2
    · rfl
    · omega
    · exact IH _ bs

/-- For a width-`w` target, `varIntOverflow w = 2 ^ (w - 7) - 1`. -/
theorem varIntOverflow_eq (w : Nat) (h7 : 7 ≤ w) :
    varIntOverflow w = 2 ^ (w - 7) - 1 := by
  have hsplit : 2 ^ w = 128 * 2 ^ (w - 7) := by
    have : (2 : Nat) ^ w = 2 ^ 7 * 2 ^ (w - 7) := by
      rw [← pow_add]
      congr 1
      omega
    simpa using this
  have hk1 : 1 ≤ 2 ^ (w - 7) := Nat.one_le_two_pow
  unfold varIntOverflow
  omega

/-- Decoding the encoding of a value that exceeds the width-`w` target
range fails with the deserialisation error: the overflow check fires before
the final group is folded in. -/
theorem readVarInt_out_of_range (w n : Nat) (rest : List Nat) (h7 : 7 ≤ w)
    (hlow : 2 ^ w ≤ n) (hhigh : n < 18446744073709551616) :
    ReadVarInt (varIntOverflow w) (WriteVarInt n ++ rest)
      = .error .varIntDeserError := by
  have hov : varIntOverflow w = 2 ^ (w - 7) - 1 := varIntOverflow_eq w h7
  have h2w : 128 ≤ 2 ^ w := by
    calc (128 : Nat) = 2 ^ 7 := by norm_num
    _ ≤ 2 ^ w := Nat.pow_le_pow_right (by omega) h7
  have h128 : 128 ≤ n := by omega
  have hL : GetSizeOfVarInt n = GetSizeOfVarInt (n / 128 - 1) + 1 := by
    rw [GetSizeOfVarInt, dif_pos h128]; omega
  have hW : WriteVarInt n =
      WriteVarIntAux (n / 128 - 1) true ++ [n % 128] := by
    rw [WriteVarInt, WriteVarIntAux, dif_pos h128]; simp
  have hsz : GetSizeOfVarInt n ≤ varIntMaxSize := getSizeOfVarInt_le_ten n hhigh
  have hfuel : varIntMaxSize
      = GetSizeOfVarInt (n / 128 - 1)
        + (varIntMaxSize - GetSizeOfVarInt (n / 128 - 1)) := by omega
  rw [ReadVarInt, hW, List.append_assoc, List.singleton_append, hfuel]
  rcases readVarIntLoop_writeAux_or (varIntOverflow w) (n / 128 - 1) 0
    (varIntMaxSize - GetSizeOfVarInt (n / 128 - 1)) ((n % 128) :: rest)
    with herr | hok
  · exact herr
  · rw [hok]
    have hdivpow : 2 ^ (w - 7) ≤ n / 128 := by
      have hsplit : 2 ^ w = 128 * 2 ^ (w - 7) := by
        have : (2 : Nat) ^ w = 2 ^ 7 * 2 ^ (w - 7) := by
          rw [← pow_add]
          congr 1
          omega
        simpa using this
      have := Nat.div_le_div_right (c := 128) hlow
      rw [hsplit, Nat.mul_div_cancel_left _ (by omega : (0:Nat) < 128)] at this
      exact this
    have hacc : 0 * 128 ^ GetSizeOfVarInt (n / 128 - 1) + (n / 128 - 1) + 1
        > varIntOverflow w := by
      simp only [Nat.zero_mul, Nat.zero_add]
      have hk1 : 1 ≤ 2 ^ (w - 7) := Nat.one_le_two_pow
      omega
    have hflsplit : varIntMaxSize - GetSizeOfVarInt (n / 128 - 1)
        = (varIntMaxSize - GetSizeOfVarInt (n / 128 - 1) - 1) + 1 := by omega
    rw [hflsplit, ReadVarIntLoop, if_pos hacc]

/-- C7: `ReadVarInt` bounds the groups it consumes to the fixed maximum
`varIntMaxSize = 10 = (64 + 6) / 7` derived from the 64-bit accumulator
width (which is the target width for the widest target `uint64_t`); it
fails with the deserialisation error when that bound is exhausted with no
terminating byte and when the accumulated value would exceed the target
range; and every successfully returned value fits the width-`w` target. -/
theorem readVarInt_bounded_and_in_range :
    (∀ ov bs n rest, ReadVarInt ov bs = .ok (n, rest) →
      rest.length ≤ bs.length ∧ bs.length ≤ rest.length + varIntMaxSize) ∧
    (∀ ov bs, ReadVarInt ov (List.replicate varIntMaxSize 128 ++ bs)
      = .error .varIntDeserError) ∧
    (∀ w n rest, 7 ≤ w → 2 ^ w ≤ n → n < 18446744073709551616 →
      ReadVarInt (varIntOverflow w) (WriteVarInt n ++ rest)
        = .error .varIntDeserError) ∧
    (∀ w bs n rest, 7 ≤ w →
      ReadVarInt (varIntOverflow w) bs = .ok (n, rest) → n < 2 ^ w) := by
  refine ⟨?_, ?_, ?_, ?_⟩
  · intro ov bs n rest h
    exact readVarIntLoop_consumption ov varIntMaxSize 0 bs n rest h
  · intro ov bs
    exact readVarIntLoop_replicate ov varIntMaxSize 0 bs
  · intro w n rest h7 hlow hhigh
    exact readVarInt_out_of_range w n rest h7 hlow hhigh
  · intro w bs n rest h7 h
    have hb := readVarIntLoop_bound (varIntOverflow w) varIntMaxSize 0 bs n rest h
    have hm := varIntOverflow_max w h7
    have h1 : 1 ≤ 2 ^ w := Nat.one_le_two_pow
    omega

/-- Witness for `readVarInt_bounded_and_in_range`: a successful 2-byte
decode obeys the consumption bound, ten continuation bytes fail, the 8-bit
encoding of 256 fails, and the value of a successful 8-bit decode fits in
8 bits. -/
theorem readVarInt_bounded_and_in_range_witness :
    ([128, 5] : List Nat).length ≤ ([] : List Nat).length + varIntMaxSize ∧
    ReadVarInt 1 (List.replicate varIntMaxSize 128 ++ [])
      = .error .varIntDeserError ∧
    ReadVarInt (varIntOverflow 8) (WriteVarInt 256 ++ [])
      = .error .varIntDeserError ∧
    (133 : Nat) < 2 ^ 8 := by
  refine ⟨?_, ?_, ?_, ?_⟩
  · exact (readVarInt_bounded_and_in_range.1 2000 [128, 5] 133 [] (by rfl)).2
  · exact readVarInt_bounded_and_in_range.2.1 1 []
  · exact readVarInt_bounded_and_in_range.2.2.1 8 256 []
      (by omega) (by omega) (by omega)
  · exact readVarInt_bounded_and_in_range.2.2.2 8 [128, 5] 133 []
      (by omega) (by rfl)

/-! ## Chunking: the flat and element-wise paths resize identically -/

/-- From any loop state, the flat path's resize boundaries
(`i + min(nSize - i, cap)`) and the element-wise path's
(`min(nSize, nMid + min(nSize, cap))` via the explicit clamp) coincide,
chunk for chunk. -/
theorem flatElemBoundaries_eq (szT nSize i chunkSize : Nat) :
    flatResizeBoundaries szT nSize i chunkSize
      = elemResizeBoundaries szT nSize i chunkSize := by
  rw [flatResizeBoundaries, elemResizeBoundaries]
  by_cases h : i < nSize
  · rw [dif_pos h, dif_pos h]
    dsimp only
    have hmin : 1 ≤ min (nSize - i) (1 + (chunkSize - 1) / szT) :=
      le_min (by omega) (Nat.le_add_right 1 _)
    have hb : (if i + min nSize (1 + (chunkSize - 1) / szT) > nSize then nSize
          else i + min nSize (1 + (chunkSize - 1) / szT))
        = i + min (nSize - i) (1 + (chunkSize - 1) / szT) := by
      split <;> omega
    rw [hb, flatElemBoundaries_eq szT nSize
      (i + min (nSize - i) (1 + (chunkSize - 1) / szT))
      (chunkSize * CHUNK_GROWTH_RATE)]
  · rw [dif_neg h, dif_neg h]
termination_by nSize - i
decreasing_by omega

/-- C8: for the same element size and declared length, the flat-blob and
element-wise decode paths grow the destination through the identical
sequence of resize boundaries, starting from the
`STARTING_CHUNK_SIZE = 16000000` byte budget, multiplying it by
`CHUNK_GROWTH_RATE = 3` after each chunk and clamping each chunk to the
remaining declared length. -/
theorem chunking_behaviour_identical (szT nSize : Nat) :
    flatResizeBoundaries szT nSize 0 STARTING_CHUNK_SIZE
      = elemResizeBoundaries szT nSize 0 STARTING_CHUNK_SIZE :=
  flatElemBoundaries_eq szT nSize 0 STARTING_CHUNK_SIZE

/-! ## Chunked flat decode: allocation bounded by consumed input -/

/-- When the source holds fewer bytes than the flat loop still needs, the
loop fails with the underrun error, and the destination at that point is
bounded by three times the bytes read plus one starting chunk — never by
the declared length.  The invariant `chunkSize ≤ 2 * i + STARTING_CHUNK_SIZE`
holds on entry (with `i` the bytes already read) because each completed
chunk reads the whole budget before it is tripled. -/
theorem unserializeFlatLoop_underrun (nSize i chunkSize : Nat)
    (v is : List Nat) (hlt : i + is.length < nSize) (hc1 : 1 ≤ chunkSize)
    (hinv : chunkSize ≤ 2 * i + STARTING_CHUNK_SIZE) (hv : v.length = i) :
    (unserializeFlatLoop nSize i chunkSize v is).2.2 = some .underrun ∧
    (unserializeFlatLoop nSize i chunkSize v is).1.length
      ≤ 3 * (i + is.length) + STARTING_CHUNK_SIZE := by
  rw [unserializeFlatLoop, dif_pos (by omega)]
  dsimp only
  have hdiv : (chunkSize - 1) / 1 = chunkSize - 1 := Nat.div_one _
  by_cases hread : min (nSize - i) (1 + (chunkSize - 1) / 1) ≤ is.length
  · rw [if_pos hread]
    have hblk : min (nSize - i) (1 + (chunkSize - 1) / 1) = chunkSize := by
      rw [hdiv]
      omega
    rw [hblk] at hread ⊢
    have hC : CHUNK_GROWTH_RATE = 3 := rfl
    rw [hC]
    have hrec := unserializeFlatLoop_underrun nSize (i + chunkSize)
      (chunkSize * 3) (v ++ is.take chunkSize)
      (is.drop chunkSize)
      (by simp only [List.length_drop]; omega)
      (by omega)
      (by omega)
      (by simp only [List.length_append, List.length_take]; omega)
    have hlen : i + chunkSize + (is.drop chunkSize).length = i + is.length := by
      simp only [List.length_drop]
      omega
    rw [hlen] at hrec
    exact hrec
  · rw [if_neg hread]
    refine ⟨rfl, ?_⟩
    simp only [List.length_append, List.length_replicate, hv, hdiv]
    omega
termination_by nSize - i
decreasing_by omega

/-- C2 (amended): a declared length above `MAX_SIZE` — such as the spec's
`2 ^ 40` — is rejected by `ReadCompactSize` with the size-too-large error
before any allocation (the destination is still empty), not with an
underrun; for every decodable declared length (necessarily at most
`MAX_SIZE`) that exceeds the bytes actually available, the flat decode
fails with the underrun error having allocated at most
`3 * (available bytes) + STARTING_CHUNK_SIZE` destination bytes — a bound
geometric in the completed chunks and independent of the declared
length. -/
theorem chunked_flat_decode_allocation_bounded :
    (∀ p v r, MAX_SIZE < v → v < 18446744073709551616 →
      UnserializeVectorFlat p (255 :: (ser_writedata64 v ++ r))
        = ([], 255 :: (ser_writedata64 v ++ r), some .sizeTooLarge)) ∧
    (∀ p is nSize is1, ReadCompactSize is = .ok (nSize, is1) →
      is1.length < nSize →
      (UnserializeVectorFlat p is).2.2 = some .underrun ∧
      (UnserializeVectorFlat p is).1.length
        ≤ 3 * is1.length + STARTING_CHUNK_SIZE) := by
  constructor
  · intro p v r h1 h2
    rw [UnserializeVectorFlat, readCompactSize_marker255_above_ceiling v r h1 h2]
  · intro p is nSize is1 hrc hlen
    rw [UnserializeVectorFlat, hrc]
    dsimp only
    have hS : STARTING_CHUNK_SIZE = 16000000 := rfl
    have h := unserializeFlatLoop_underrun nSize 0 STARTING_CHUNK_SIZE [] is1
      (by omega) (by omega) (by omega) rfl
    simpa using h

/-- Counterexample to C2 as stated: the spec's own example — a declared
length of `2 ^ 40` single-byte elements over a 10-byte source — fails with
the size-too-large error, not the underrun error (the destination is left
empty, so the allocation bound itself holds vacuously). -/
theorem chunked_flat_decode_2pow40_counterexample :
    (255 :: (ser_writedata64 1099511627776 ++ [0])).length = 10 ∧
    (UnserializeVectorFlat [] (255 :: (ser_writedata64 1099511627776 ++ [0]))).2.2
      = some .sizeTooLarge ∧
    some SerErr.sizeTooLarge ≠ some SerErr.underrun := by
  refine ⟨by rfl, by rfl, by decide⟩

/-- Witness for `chunked_flat_decode_allocation_bounded`: a declared
length of 5 over a 1-byte source underruns with a bounded destination, and
the 9-byte form of `2 ^ 32` is rejected empty-handed. -/
theorem chunked_flat_decode_allocation_bounded_witness :
    ((UnserializeVectorFlat [] [5, 9]).2.2 = some .underrun ∧
      (UnserializeVectorFlat [] [5, 9]).1.length
        ≤ 3 * [9].length + STARTING_CHUNK_SIZE) ∧
    UnserializeVectorFlat [] (255 :: (ser_writedata64 4294967296 ++ []))
      = ([], 255 :: (ser_writedata64 4294967296 ++ []), some .sizeTooLarge) := by
  constructor
  · exact chunked_flat_decode_allocation_bounded.2 [] [5, 9] 5 [9]
      (by rfl) (by decide)
  · exact chunked_flat_decode_allocation_bounded.1 [] 4294967296 []
      (by decide) (by decide)

/-! ## Element-wise decode: destination state at the point of failure -/

/-- The inner element loop keeps the destination length fixed at the
resize boundary, never moves the index backwards or past the boundary,
and reaches the boundary exactly when no error occurred. -/
theorem unserializeElemChunk_spec {α : Type}
    (dec : List Nat → Except SerErr (α × List Nat)) (v : List α)
    (i nMid : Nat) (is : List Nat) (hi : i ≤ nMid) (hv : v.length = nMid) :
    (unserializeElemChunk dec v i nMid is).1.length = nMid ∧
    i ≤ (unserializeElemChunk dec v i nMid is).2.1 ∧
    (unserializeElemChunk dec v i nMid is).2.1 ≤ nMid ∧
    ((unserializeElemChunk dec v i nMid is).2.2.2 = none →
      (unserializeElemChunk dec v i nMid is).2.1 = nMid) := by
  rw [unserializeElemChunk]
  by_cases h : i < nMid
  · rw [dif_pos h]
    cases hdec : dec is with
    | error e =>
      dsimp only
      exact ⟨hv, by omega, by omega, by simp⟩
    | ok p =>
      obtain ⟨x, is2⟩ := p
      dsimp only
      have hrec := unserializeElemChunk_spec dec (v.set i x) (i + 1) nMid is2
        (by omega) (by simp [hv])
      exact ⟨hrec.1, by omega, hrec.2.2.1, hrec.2.2.2⟩
  · rw [dif_neg h]
    dsimp only
    exact ⟨hv, le_refl i, by omega, fun _ => by omega⟩
termination_by nMid - i

/-- Chunk budgets in elements grow at most threefold when the byte budget
triples: `1 + (3c - 1) / s ≤ 3 * (1 + (c - 1) / s)`. -/
theorem elem_budget_triple (s c : Nat) (hs : 0 < s) (hc : 1 ≤ c) :
    1 + (c * 3 - 1) / s ≤ 3 * (1 + (c - 1) / s) := by
  have hmod : s * ((c - 1) / s) + (c - 1) % s = c - 1 := Nat.div_add_mod (c - 1) s
  have hr : (c - 1) % s < s := Nat.mod_lt _ hs
  have hlin : s * (3 * ((c - 1) / s)) = 3 * (s * ((c - 1) / s)) := by ring
  have h0 : c * 3 - 1 = s * (3 * ((c - 1) / s)) + (3 * ((c - 1) % s) + 2) := by
    omega
  rw [h0, Nat.mul_add_div hs]
  have hq : (3 * ((c - 1) % s) + 2) / s < 3 := by
    rw [Nat.div_lt_iff_lt_mul hs]
    omega
  omega

/-- When the element-wise loop propagates an error, the destination holds
at most the boundary of the in-progress chunk: its length is bounded by
three times the fully-read element count plus one starting chunk of
elements, and never exceeds the declared length. -/
theorem unserializeElemLoop_error_bound {α : Type}
    (dec : List Nat → Except SerErr (α × List Nat)) (default : α)
    (szT nSize : Nat) (hszT : 1 ≤ szT)
    (v : List α) (i nMid chunkSize : Nat) (is : List Nat)
    (v3 : List α) (i3 : Nat) (is3 : List Nat) (e : SerErr)
    (hv : v.length = nMid) (hi : i = nMid) (hle : nMid ≤ nSize)
    (hc1 : 1 ≤ chunkSize)
    (hinv : 1 + (chunkSize - 1) / szT
      ≤ 2 * nMid + (1 + (STARTING_CHUNK_SIZE - 1) / szT))
    (heq : unserializeElemLoop dec default szT nSize v i nMid chunkSize is
      = (v3, i3, is3, some e)) :
    v3.length ≤ 3 * i3 + (1 + (STARTING_CHUNK_SIZE - 1) / szT) ∧
    v3.length ≤ nSize := by
  rw [unserializeElemLoop] at heq
  by_cases h : nMid < nSize
  · rw [dif_pos h] at heq
    dsimp only at heq
    have hcap1 : 1 ≤ 1 + (chunkSize - 1) / szT := Nat.le_add_right 1 _
    have hM3a : nMid < (if nMid + min nSize (1 + (chunkSize - 1) / szT) > nSize
        then nSize else nMid + min nSize (1 + (chunkSize - 1) / szT)) := by
      split <;> omega
    have hM3b : (if nMid + min nSize (1 + (chunkSize - 1) / szT) > nSize
        then nSize else nMid + min nSize (1 + (chunkSize - 1) / szT)) ≤ nSize := by
      split <;> omega
    have hM3c : (if nMid + min nSize (1 + (chunkSize - 1) / szT) > nSize
        then nSize else nMid + min nSize (1 + (chunkSize - 1) / szT))
        ≤ nMid + (1 + (chunkSize - 1) / szT) := by
      split <;> omega
    have hM3d : (if nMid + min nSize (1 + (chunkSize - 1) / szT) > nSize
        then nSize else nMid + min nSize (1 + (chunkSize - 1) / szT)) = nSize ∨
        (if nMid + min nSize (1 + (chunkSize - 1) / szT) > nSize
        then nSize else nMid + min nSize (1 + (chunkSize - 1) / szT))
        = nMid + min nSize (1 + (chunkSize - 1) / szT) := by
      split
      · exact Or.inl rfl
      · exact Or.inr rfl
    set nMid3 := if nMid + min nSize (1 + (chunkSize - 1) / szT) > nSize
      then nSize else nMid + min nSize (1 + (chunkSize - 1) / szT) with hnMid3
    have hv2 : (v ++ List.replicate (nMid3 - v.length) default).length = nMid3 := by
      simp only [List.length_append, List.length_replicate]
      omega
    rcases hU : unserializeElemChunk dec
        (v ++ List.replicate (nMid3 - v.length) default) i nMid3 is
      with ⟨v3p, i3p, is3p, errp⟩
    have hchunk := unserializeElemChunk_spec dec
      (v ++ List.replicate (nMid3 - v.length) default) i nMid3 is
      (by omega) hv2
    rw [hU] at hchunk heq
    dsimp only at hchunk heq
    cases errp with
    | some e2 =>
      dsimp only at heq
      simp only [Prod.mk.injEq] at heq
      obtain ⟨rfl, rfl, -, -⟩ := heq
      constructor
      · omega
      · omega
    | none =>
      dsimp only at heq
      have hi3p : i3p = nMid3 := hchunk.2.2.2 rfl
      by_cases hend : nMid3 < nSize
      · have hms : nMid3 = nMid + (1 + (chunkSize - 1) / szT) := by
          rcases hM3d with h1 | h2
          · omega
          · rcases Nat.le_total nSize (1 + (chunkSize - 1) / szT) with hmin | hmin
            · rw [min_eq_left hmin] at h2
              omega
            · rw [min_eq_right hmin] at h2
              omega
        have hC : CHUNK_GROWTH_RATE = 3 := rfl
        refine unserializeElemLoop_error_bound dec default szT nSize hszT
          v3p i3p nMid3 (chunkSize * CHUNK_GROWTH_RATE) is3p v3 i3 is3 e
          hchunk.1 hi3p hM3b (by rw [hC]; omega) ?_ heq
        rw [hC]
        have htriple := elem_budget_triple szT chunkSize hszT hc1
        omega
      · have hM3eq : nMid3 = nSize := by omega
        rw [hM3eq] at heq
        rw [unserializeElemLoop] at heq
        rw [dif_neg (by omega)] at heq
        simp only [Prod.mk.injEq] at heq
        exact absurd heq.2.2.2 (by simp)
  · rw [dif_neg h] at heq
    simp only [Prod.mk.injEq] at heq
    exact absurd heq.2.2.2 (by simp)
termination_by nSize - nMid
decreasing_by omega

/-- C5 (amended): when a chunked element-wise decode fails mid-sequence,
the destination at the point the error propagates holds the completed
chunks plus at most the in-progress chunk (whose unread slots are still
value-initialised): its element count is bounded by three times the
fully-read element count plus one starting chunk of elements — bounded by
the chunk schedule and the input consumed, not the declared length — and
never exceeds the declared length. -/
theorem elem_decode_failure_destination_bound {α : Type}
    (dec : List Nat → Except SerErr (α × List Nat)) (default : α)
    (szT : Nat) (prior : List α) (is : List Nat)
    (v3 : List α) (i3 : Nat) (is3 : List Nat) (e : SerErr)
    (hszT : 1 ≤ szT)
    (heq : UnserializeVectorElem dec default szT prior is = (v3, i3, is3, some e)) :
    v3.length ≤ 3 * i3 + (1 + (STARTING_CHUNK_SIZE - 1) / szT) ∧
    (∀ nSize is1, ReadCompactSize is = .ok (nSize, is1) → v3.length ≤ nSize) := by
  rw [UnserializeVectorElem] at heq
  cases hrc : ReadCompactSize is with
  | error e2 =>
    rw [hrc] at heq
    dsimp only at heq
    simp only [Prod.mk.injEq] at heq
    obtain ⟨rfl, rfl, -, -⟩ := heq
    exact ⟨by simp, fun nSize is1 hok => absurd hok (by simp)⟩
  | ok p =>
    obtain ⟨nSize, is1⟩ := p
    rw [hrc] at heq
    dsimp only at heq
    have hS : STARTING_CHUNK_SIZE = 16000000 := rfl
    have hb := unserializeElemLoop_error_bound dec default szT nSize hszT
      [] 0 0 STARTING_CHUNK_SIZE is1 v3 i3 is3 e rfl rfl (by omega) (by omega)
      (by omega) heq
    refine ⟨hb.1, fun nSize2 is2 hok => ?_⟩
    obtain ⟨h1, -⟩ := Prod.mk.injEq .. ▸ Except.ok.inj hok
    omega

/-- Counterexample to C5 as stated: decoding a vector of 2-byte elements
with declared count 3 over 3 source bytes reads one full element, fails
with an underrun inside the second, and at that point the destination
holds 3 elements (the in-progress chunk, its unread slots still
value-initialised) even though only 1 element was fully read — a
partially-read trailing chunk is present. -/
theorem elem_decode_partial_chunk_counterexample :
    UnserializeVectorElem ser_readdata16 0 2 [] [3, 170, 187, 204]
      = ([48042, 0, 0], 1, [204], some .underrun) ∧
    ([48042, 0, 0] : List Nat).length = 3 ∧ ¬ (3 : Nat) ≤ 1 := by
  refine ⟨?_, rfl, by omega⟩
  rw [UnserializeVectorElem]
  norm_num [ReadCompactSize, ser_readdata8, ReadCompactSizeBody, MAX_SIZE,
    unserializeElemLoop, unserializeElemChunk, ser_readdata16,
    STARTING_CHUNK_SIZE, CHUNK_GROWTH_RATE]
  rfl

/-- Witness for `elem_decode_failure_destination_bound` at a concrete
2-byte-element decode that underruns inside the second element. -/
theorem elem_decode_failure_destination_bound_witness :
    ([48042, 0] : List Nat).length
      ≤ 3 * 1 + (1 + (STARTING_CHUNK_SIZE - 1) / 2) ∧
    ([48042, 0] : List Nat).length ≤ 2 := by
  have h : UnserializeVectorElem ser_readdata16 0 2 [] [2, 170, 187, 204]
      = ([48042, 0], 1, [204], some .underrun) := by
    rw [UnserializeVectorElem]
    norm_num [ReadCompactSize, ser_readdata8, ReadCompactSizeBody, MAX_SIZE,
      unserializeElemLoop, unserializeElemChunk, ser_readdata16,
      STARTING_CHUNK_SIZE, CHUNK_GROWTH_RATE]
    rfl
  have hb := elem_decode_failure_destination_bound ser_readdata16 0 2 []
    [2, 170, 187, 204] [48042, 0] 1 [204] .underrun (by omega) h
  exact ⟨hb.1, hb.2 2 [170, 187, 204] (by rfl)⟩

/-! ## Map/set decode: duplicate keys resolve first-wins -/

/-- Looking up after one hinted insert: a key already present keeps its
value; an absent key gains the inserted pair's value. -/
theorem mapLookup_insertHinted {K V : Type} [DecidableEq K]
    (m : List (K × V)) (p : K × V) (k : K) :
    mapLookup (mapInsertHinted m p) k
      = match mapLookup m k with
        | some v => some v
        | none => if p.1 = k then some p.2 else none := by
  by_cases hany : m.any (fun q => q.1 = p.1)
  · have hins : mapInsertHinted m p = m := by rw [mapInsertHinted, if_pos hany]
    rw [hins]
    cases hfind : mapLookup m k with
    | some v => simp
    | none =>
      have hne : ¬ p.1 = k := by
        intro he
        rw [mapLookup] at hfind
        have hf2 : m.find? (fun q => decide (q.1 = k)) = none :=
          Option.map_eq_none'.mp hfind
        rw [List.find?_eq_none] at hf2
        rw [List.any_eq_true] at hany
        obtain ⟨q, hq, hqp⟩ := hany
        simp only [decide_eq_true_eq] at hqp
        exact hf2 q hq (by simp [hqp, he])
      simp [hne]
  · have hins : mapInsertHinted m p = m ++ [p] := by
      rw [mapInsertHinted, if_neg hany]
    rw [hins, mapLookup, mapLookup, List.find?_append]
    cases hfind : m.find? (fun q => decide (q.1 = k)) with
    | some q => simp
    | none =>
      by_cases hpk : p.1 = k
      · simp [hpk]
      · simp [hpk]

/-- Folding hinted inserts over a pair list: lookup returns the prior
value when present, otherwise the value of the first occurrence of the
key in the list. -/
theorem mapLookup_foldl_insertHinted {K V : Type} [DecidableEq K]
    (ps : List (K × V)) : ∀ (m : List (K × V)) (k : K),
    mapLookup (ps.foldl mapInsertHinted m) k
      = match mapLookup m k with
        | some v => some v
        | none => (ps.find? (fun q => q.1 = k)).map Prod.snd := by
  induction ps with
  | nil =>
    intro m k
    cases h : mapLookup m k <;> simp [h]
  | cons p ps IH =>
    intro m k
    rw [List.foldl_cons, IH, mapLookup_insertHinted]
    cases h : mapLookup m k with
    | some v => rfl
    | none =>
      by_cases hpk : p.1 = k
      · simp [hpk]
      · simp [hpk]

/-- Membership after one hinted set insert. -/
theorem mem_setInsertHinted {K : Type} [DecidableEq K] (s : List K)
    (a k : K) : k ∈ setInsertHinted s a ↔ k ∈ s ∨ k = a := by
  rw [setInsertHinted]
  by_cases hany : s.any (fun x => x = a)
  · rw [if_pos hany]
    rw [List.any_eq_true] at hany
    obtain ⟨x, hx, hxa⟩ := hany
    simp only [decide_eq_true_eq] at hxa
    constructor
    · exact Or.inl
    · rintro (h | rfl)
      · exact h
      · exact hxa ▸ hx
  · rw [if_neg hany]
    simp

/-- One hinted set insert preserves distinctness. -/
theorem nodup_setInsertHinted {K : Type} [DecidableEq K] (s : List K)
    (a : K) (hs : s.Nodup) : (setInsertHinted s a).Nodup := by
  rw [setInsertHinted]
  by_cases hany : s.any (fun x => x = a)
  · rw [if_pos hany]
    exact hs
  · rw [if_neg hany]
    have hnot : a ∉ s := by
      intro hmem
      exact hany (List.any_eq_true.mpr ⟨a, hmem, by simp⟩)
    rw [← List.concat_eq_append]
    exact List.Nodup.concat hnot hs

/-- Membership in a fold of hinted set inserts. -/
theorem mem_foldl_setInsertHinted {K : Type} [DecidableEq K] (ks : List K) :
    ∀ (s : List K) (k : K),
    k ∈ ks.foldl setInsertHinted s ↔ k ∈ s ∨ k ∈ ks := by
  induction ks with
  | nil =>
    intro s k
    simp
  | cons a ks IH =>
    intro s k
    rw [List.foldl_cons, IH, mem_setInsertHinted]
    simp only [List.mem_cons]
    constructor
    · rintro ((h | rfl) | h)
      · exact Or.inl h
      · exact Or.inr (Or.inl rfl)
      · exact Or.inr (Or.inr h)
    · rintro (h | rfl | h)
      · exact Or.inl (Or.inl h)
      · exact Or.inl (Or.inr rfl)
      · exact Or.inr h

/-- A fold of hinted set inserts preserves distinctness. -/
theorem nodup_foldl_setInsertHinted {K : Type} [DecidableEq K] (ks : List K) :
    ∀ (s : List K), s.Nodup → (ks.foldl setInsertHinted s).Nodup := by
  induction ks with
  | nil => intro s hs; exact hs
  | cons a ks IH =>
    intro s hs
    rw [List.foldl_cons]
    exact IH _ (nodup_setInsertHinted s a hs)

/-- A successful run of the map decode loop is the fold of hinted inserts
over the plainly decoded wire pairs. -/
theorem unserializeMapLoop_foldl {K V : Type} [DecidableEq K]
    (decK : List Nat → Except SerErr (K × List Nat))
    (decV : List Nat → Except SerErr (V × List Nat)) :
    ∀ (n : Nat) (m : List (K × V)) (is : List Nat) m2 rest,
    UnserializeMapLoop decK decV n m is = .ok (m2, rest) →
    ∃ ps, DecodePairs decK decV n is = .ok (ps, rest) ∧
      m2 = ps.foldl mapInsertHinted m := by
  intro n
  induction n with
  | zero =>
    intro m is m2 rest h
    rw [UnserializeMapLoop] at h
    obtain ⟨rfl, rfl⟩ := Prod.mk.injEq .. ▸ Except.ok.inj h
    exact ⟨[], rfl, rfl⟩
  | succ n IH =>
    intro m is m2 rest h
    rw [UnserializeMapLoop] at h
    cases hk : decK is with
    | error e => rw [hk] at h; exact absurd h (by simp)
    | ok pk =>
      obtain ⟨k, is1⟩ := pk
      rw [hk] at h
      dsimp only at h
      cases hv : decV is1 with
      | error e => rw [hv] at h; exact absurd h (by simp)
      | ok pv =>
        obtain ⟨v, is2⟩ := pv
        rw [hv] at h
        dsimp only at h
        obtain ⟨ps, hdec, hm2⟩ := IH (mapInsertHinted m (k, v)) is2 m2 rest h
        refine ⟨(k, v) :: ps, ?_, ?_⟩
        · rw [DecodePairs, hk]
          dsimp only
          rw [hv]
          dsimp only
          rw [hdec]
        · rw [hm2, List.foldl_cons]

/-- A successful run of the set decode loop is the fold of hinted inserts
over the plainly decoded wire keys. -/
theorem unserializeSetLoop_foldl {K : Type} [DecidableEq K]
    (decK : List Nat → Except SerErr (K × List Nat)) :
    ∀ (n : Nat) (s : List K) (is : List Nat) s2 rest,
    UnserializeSetLoop decK n s is = .ok (s2, rest) →
    ∃ ks, DecodeKeys decK n is = .ok (ks, rest) ∧
      s2 = ks.foldl setInsertHinted s := by
  intro n
  induction n with
  | zero =>
    intro s is s2 rest h
    rw [UnserializeSetLoop] at h
    obtain ⟨rfl, rfl⟩ := Prod.mk.injEq .. ▸ Except.ok.inj h
    exact ⟨[], rfl, rfl⟩
  | succ n IH =>
    intro s is s2 rest h
    rw [UnserializeSetLoop] at h
    cases hk : decK is with
    | error e => rw [hk] at h; exact absurd h (by simp)
    | ok pk =>
      obtain ⟨k, is1⟩ := pk
      rw [hk] at h
      dsimp only at h
      obtain ⟨ks, hdec, hs2⟩ := IH (setInsertHinted s k) is1 s2 rest h
      refine ⟨k :: ks, ?_, ?_⟩
      · rw [DecodeKeys, hk]
        dsimp only
        rw [hdec]
      · rw [hs2, List.foldl_cons]

/-- C9: decoding a map whose wire payload contains pairs with equal keys
keeps the value of the first occurrence of each key on the wire and
discards later occurrences — lookup in the decoded map agrees with
`find?` (first match) over the plainly decoded wire pairs; analogously, a
decoded set contains exactly the keys on the wire, each once. -/
theorem map_set_decode_first_wins :
    (∀ {K V : Type} [DecidableEq K]
      (decK : List Nat → Except SerErr (K × List Nat))
      (decV : List Nat → Except SerErr (V × List Nat))
      (mPrior : List (K × V)) (is : List Nat) (m : List (K × V))
      (rest : List Nat),
      UnserializeMap decK decV mPrior is = .ok (m, rest) →
      ∃ nSize is1 ps, ReadCompactSize is = .ok (nSize, is1) ∧
        DecodePairs decK decV nSize is1 = .ok (ps, rest) ∧
        ∀ k, mapLookup m k = (ps.find? (fun q => q.1 = k)).map Prod.snd) ∧
    (∀ {K : Type} [DecidableEq K]
      (decK : List Nat → Except SerErr (K × List Nat))
      (sPrior : List K) (is : List Nat) (s : List K) (rest : List Nat),
      UnserializeSet decK sPrior is = .ok (s, rest) →
      ∃ nSize is1 ks, ReadCompactSize is = .ok (nSize, is1) ∧
        DecodeKeys decK nSize is1 = .ok (ks, rest) ∧
        (∀ k, k ∈ s ↔ k ∈ ks) ∧ s.Nodup) := by
  constructor
  · intro K V _ decK decV mPrior is m rest h
    rw [UnserializeMap] at h
    cases hrc : ReadCompactSize is with
    | error e => rw [hrc] at h; exact absurd h (by simp)
    | ok p =>
      obtain ⟨nSize, is1⟩ := p
      rw [hrc] at h
      dsimp only at h
      obtain ⟨ps, hdec, hm⟩ := unserializeMapLoop_foldl decK decV nSize [] is1 m rest h
      refine ⟨nSize, is1, ps, rfl, hdec, fun k => ?_⟩
      rw [hm, mapLookup_foldl_insertHinted]
      rfl
  · intro K _ decK sPrior is s rest h
    rw [UnserializeSet] at h
    cases hrc : ReadCompactSize is with
    | error e => rw [hrc] at h; exact absurd h (by simp)
    | ok p =>
      obtain ⟨nSize, is1⟩ := p
      rw [hrc] at h
      dsimp only at h
      obtain ⟨ks, hdec, hs⟩ := unserializeSetLoop_foldl decK nSize [] is1 s rest h
      refine ⟨nSize, is1, ks, rfl, hdec, fun k => ?_, ?_⟩
      · rw [hs, mem_foldl_setInsertHinted]
        simp
      · rw [hs]
        exact nodup_foldl_setInsertHinted ks [] List.nodup_nil

/-- Witness for `map_set_decode_first_wins`: the wire stream
`[2, 7, 1, 7, 2]` declares two pairs with the same key 7; the decoded map
is `[(7, 1)]` and lookup of 7 finds the first wire value 1.  The stream
`[2, 7, 7]` declares the key 7 twice; the decoded set holds it once. -/
theorem map_set_decode_first_wins_witness :
    mapLookup [((7 : Nat), (1 : Nat))] 7
      = (([((7 : Nat), (1 : Nat)), (7, 2)].find? (fun q => q.1 = 7)).map
          Prod.snd) ∧
    mapLookup [((7 : Nat), (1 : Nat))] 7 = some 1 ∧
    ((7 : Nat) ∈ [(7 : Nat)] ↔ (7 : Nat) ∈ [(7 : Nat), 7]) ∧
    ([(7 : Nat)] : List Nat).Nodup := by
  obtain ⟨hmap, hset⟩ := map_set_decode_first_wins
  obtain ⟨nSize, is1, ps, h1, h2, h3⟩ :=
    hmap ser_readdata8 ser_readdata8 [] [2, 7, 1, 7, 2] [(7, 1)] [] (by rfl)
  obtain ⟨rfl, rfl⟩ : nSize = 2 ∧ is1 = [7, 1, 7, 2] := by
    have h1c : ReadCompactSize [2, 7, 1, 7, 2] = .ok (2, [7, 1, 7, 2]) := rfl
    have := h1.symm.trans h1c
    exact ⟨(Prod.mk.injEq .. ▸ Except.ok.inj this).1,
      (Prod.mk.injEq .. ▸ Except.ok.inj this).2⟩
  obtain ⟨rfl, -⟩ : ps = [(7, 1), (7, 2)] ∧ True := by
    have h2c : DecodePairs ser_readdata8 ser_readdata8 2 [7, 1, 7, 2]
        = .ok ([(7, 1), (7, 2)], []) := rfl
    have := h2.symm.trans h2c
    exact ⟨(Prod.mk.injEq .. ▸ Except.ok.inj this).1, trivial⟩
  obtain ⟨nSize2, is2, ks, g1, g2, g3, g4⟩ :=
    hset ser_readdata8 [] [2, 7, 7] [7] [] (by rfl)
  obtain ⟨rfl, rfl⟩ : nSize2 = 2 ∧ is2 = [7, 7] := by
    have g1c : ReadCompactSize [2, 7, 7] = .ok (2, [7, 7]) := rfl
    have := g1.symm.trans g1c
    exact ⟨(Prod.mk.injEq .. ▸ Except.ok.inj this).1,
      (Prod.mk.injEq .. ▸ Except.ok.inj this).2⟩
  obtain ⟨rfl, -⟩ : ks = [7, 7] ∧ True := by
    have g2c : DecodeKeys ser_readdata8 2 [7, 7] = .ok ([7, 7], []) := rfl
    have := g2.symm.trans g2c
    exact ⟨(Prod.mk.injEq .. ▸ Except.ok.inj this).1, trivial⟩
  exact ⟨h3 7, by rw [h3 7]; rfl, g3 7, g4⟩

/-! ## Container decodes ignore the destination's prior contents -/

/-- C10: every container decode (vector, prevector, map, set — both flat
and element-wise paths) clears the destination before reading, so the
result is the same function of the stream bytes whatever the caller's
container held before the call. -/
theorem container_decode_independent_of_prior :
    (∀ (p1 p2 is : List Nat),
      UnserializeVectorFlat p1 is = UnserializeVectorFlat p2 is) ∧
    (∀ {α : Type} (dec : List Nat → Except SerErr (α × List Nat))
      (default : α) (szT : Nat) (p1 p2 : List α) (is : List Nat),
      UnserializeVectorElem dec default szT p1 is
        = UnserializeVectorElem dec default szT p2 is) ∧
    (∀ (p1 p2 is : List Nat),
      UnserializePrevectorFlat p1 is = UnserializePrevectorFlat p2 is) ∧
    (∀ {α : Type} (dec : List Nat → Except SerErr (α × List Nat))
      (default : α) (szT : Nat) (p1 p2 : List α) (is : List Nat),
      UnserializePrevectorElem dec default szT p1 is
        = UnserializePrevectorElem dec default szT p2 is) ∧
    (∀ {K V : Type} [DecidableEq K]
      (decK : List Nat → Except SerErr (K × List Nat))
      (decV : List Nat → Except SerErr (V × List Nat))
      (p1 p2 : List (K × V)) (is : List Nat),
      UnserializeMap decK decV p1 is = UnserializeMap decK decV p2 is) ∧
    (∀ {K : Type} [DecidableEq K]
      (decK : List Nat → Except SerErr (K × List Nat))
      (p1 p2 : List K) (is : List Nat),
      UnserializeSet decK p1 is = UnserializeSet decK p2 is) := by
  refine ⟨fun p1 p2 is => rfl, fun dec default szT p1 p2 is => rfl,
    fun p1 p2 is => rfl, fun dec default szT p1 p2 is => rfl,
    fun decK decV p1 p2 is => rfl, fun decK p1 p2 is => rfl⟩

/-! ## Size-computation pass equals real serialization length -/

/-- A successful `WriteCompactSize` emits exactly
`GetSizeOfCompactSize nSize` bytes. -/
theorem writeCompactSize_length (nSize : Nat) (bs : List Nat)
    (h : WriteCompactSize nSize = .ok bs) :
    bs.length = GetSizeOfCompactSize nSize := by
  rw [WriteCompactSize] at h
  by_cases h1 : nSize > MAX_SIZE
  · rw [if_pos h1] at h
    exact absurd h (by simp)
  · rw [if_neg h1] at h
    by_cases h2 : nSize < 253
    · rw [if_pos h2] at h
      obtain rfl := Except.ok.inj h
      rw [GetSizeOfCompactSize, if_pos h2]
      rfl
    · rw [if_neg h2] at h
      by_cases h3 : nSize ≤ 65535
      · rw [if_pos h3] at h
        obtain rfl := Except.ok.inj h
        rw [GetSizeOfCompactSize, if_neg h2, if_pos h3]
        rfl
      · rw [if_neg h3] at h
        by_cases h4 : nSize ≤ 4294967295
        · rw [if_pos h4] at h
          obtain rfl := Except.ok.inj h
          rw [GetSizeOfCompactSize, if_neg h2, if_neg h3, if_pos h4]
          rfl
        · rw [if_neg h4] at h
          obtain rfl := Except.ok.inj h
          rw [GetSizeOfCompactSize, if_neg h2, if_neg h3, if_neg h4]
          rfl

mutual

/-- Real serialization of a value, when it succeeds, emits exactly the
`CSizeComputer` tally. -/
theorem serializeValue_size (v : SerValue) (bs : List Nat)
    (h : SerializeValue v = .ok bs) : SerSizeValue v = bs.length := by
  cases v with
  | u8 n => rw [SerializeValue] at h; obtain rfl := Except.ok.inj h; rfl
  | u16 n => rw [SerializeValue] at h; obtain rfl := Except.ok.inj h; rfl
  | u32 n => rw [SerializeValue] at h; obtain rfl := Except.ok.inj h; rfl
  | u64 n => rw [SerializeValue] at h; obtain rfl := Except.ok.inj h; rfl
  | boolean b => rw [SerializeValue] at h; obtain rfl := Except.ok.inj h; rfl
  | compactSize n =>
    rw [SerializeValue] at h
    rw [SerSizeValue]
    exact (writeCompactSize_length n bs h).symm
  | varInt n =>
    rw [SerializeValue] at h
    obtain rfl := Except.ok.inj h
    rw [SerSizeValue]
    exact (writeVarInt_length n).symm
  | byteVec l =>
    rw [SerializeValue] at h
    cases hc : WriteCompactSize l.length with
    | error e => rw [hc] at h; exact absurd h (by simp)
    | ok pre =>
      rw [hc] at h
      dsimp only at h
      obtain rfl := Except.ok.inj h
      rw [SerSizeValue]
      simp [writeCompactSize_length l.length pre hc]
  | genVec l =>
    rw [SerializeValue] at h
    cases hc : WriteCompactSize l.length with
    | error e => rw [hc] at h; exact absurd h (by simp)
    | ok pre =>
      rw [hc] at h
      dsimp only at h
      cases hl : SerializeValueList l with
      | error e => rw [hl] at h; exact absurd h (by simp)
      | ok body =>
        rw [hl] at h
        dsimp only at h
        obtain rfl := Except.ok.inj h
        rw [SerSizeValue]
        simp [serializeValueList_size l body hl,
          writeCompactSize_length l.length pre hc]
  | pairVal a b =>
    rw [SerializeValue] at h
    cases ha : SerializeValue a with
    | error e => rw [ha] at h; exact absurd h (by simp)
    | ok ba =>
      rw [ha] at h
      dsimp only at h
      cases hb : SerializeValue b with
      | error e => rw [hb] at h; exact absurd h (by simp)
      | ok bb =>
        rw [hb] at h
        dsimp only at h
        obtain rfl := Except.ok.inj h
        rw [SerSizeValue, serializeValue_size a ba ha,
          serializeValue_size b bb hb]
        simp

/-- Real serialization of a value list, when it succeeds, emits exactly
the element-wise tally. -/
theorem serializeValueList_size (l : List SerValue) (bs : List Nat)
    (h : SerializeValueList l = .ok bs) : SerSizeValueList l = bs.length := by
  cases l with
  | nil =>
    rw [SerializeValueList] at h
    obtain rfl := Except.ok.inj h
    rfl
  | cons v vs =>
    rw [SerializeValueList] at h
    cases hv : SerializeValue v with
    | error e => rw [hv] at h; exact absurd h (by simp)
    | ok bv =>
      rw [hv] at h
      dsimp only at h
      cases hvs : SerializeValueList vs with
      | error e => rw [hvs] at h; exact absurd h (by simp)
      | ok bvs =>
        rw [hvs] at h
        dsimp only at h
        obtain rfl := Except.ok.inj h
        rw [SerSizeValueList, serializeValue_size v bv hv,
          serializeValueList_size vs bvs hvs]
        simp

end

/-- C4: for every serializable value whose real serialization succeeds,
the `CSizeComputer` tally (`GetSerializeSize`, with the seek-based
`WriteVarInt`/`WriteCompactSize` overloads) equals the exact byte length
of the real serialization. -/
theorem getSerializeSize_eq_length (v : SerValue) (bs : List Nat)
    (h : SerializeValue v = .ok bs) : GetSerializeSize v = bs.length :=
  serializeValue_size v bs h

/-- Witness for `getSerializeSize_eq_length` at a compound value
exercising the fixed-width, CompactSize, VarInt, flat-vector and pair
codecs. -/
theorem getSerializeSize_eq_length_witness :
    GetSerializeSize (SerValue.genVec [SerValue.u8 7, SerValue.compactSize 300,
      SerValue.varInt 300, SerValue.byteVec [1, 2, 3],
      SerValue.pairVal (SerValue.boolean true) (SerValue.u32 5)])
      = ([5, 7, 253, 44, 1, 129, 44, 3, 1, 2, 3, 1, 5, 0, 0, 0] : List Nat).length := by
  have eu8 : SerializeValue (SerValue.u8 7) = .ok [7] := by
    rw [SerializeValue]
    rfl
  have ecs : SerializeValue (SerValue.compactSize 300) = .ok [253, 44, 1] := by
    rw [SerializeValue]
    rfl
  have evi : SerializeValue (SerValue.varInt 300) = .ok [129, 44] := by
    rw [SerializeValue, WriteVarInt, WriteVarIntAux, dif_pos (by norm_num),
      WriteVarIntAux, dif_neg (by norm_num)]
    rfl
  have ebv : SerializeValue (SerValue.byteVec [1, 2, 3]) = .ok [3, 1, 2, 3] := by
    rw [SerializeValue]
    rfl
  have ebool : SerializeValue (SerValue.boolean true) = .ok [1] := by
    rw [SerializeValue]
    rfl
  have eu32 : SerializeValue (SerValue.u32 5) = .ok [5, 0, 0, 0] := by
    rw [SerializeValue]
    rfl
  have epair : SerializeValue (SerValue.pairVal (SerValue.boolean true)
      (SerValue.u32 5)) = .ok [1, 5, 0, 0, 0] := by
    rw [SerializeValue, ebool]
    dsimp only
    rw [eu32]
    rfl
  have l0 : SerializeValueList [] = .ok [] := by
    rw [SerializeValueList]
  have l1 : SerializeValueList [SerValue.pairVal (SerValue.boolean true)
      (SerValue.u32 5)] = .ok [1, 5, 0, 0, 0] := by
    rw [SerializeValueList, epair]
    dsimp only
    rw [l0]
    rfl
  have l2 : SerializeValueList [SerValue.byteVec [1, 2, 3],
      SerValue.pairVal (SerValue.boolean true) (SerValue.u32 5)]
      = .ok [3, 1, 2, 3, 1, 5, 0, 0, 0] := by
    rw [SerializeValueList, ebv]
    dsimp only
    rw [l1]
    rfl
  have l3 : SerializeValueList [SerValue.varInt 300, SerValue.byteVec [1, 2, 3],
      SerValue.pairVal (SerValue.boolean true) (SerValue.u32 5)]
      = .ok [129, 44, 3, 1, 2, 3, 1, 5, 0, 0, 0] := by
    rw [SerializeValueList, evi]
    dsimp only
    rw [l2]
    rfl
  have l4 : SerializeValueList [SerValue.compactSize 300, SerValue.varInt 300,
      SerValue.byteVec [1, 2, 3],
      SerValue.pairVal (SerValue.boolean true) (SerValue.u32 5)]
      = .ok [253, 44, 1, 129, 44, 3, 1, 2, 3, 1, 5, 0, 0, 0] := by
    rw [SerializeValueList, ecs]
    dsimp only
    rw [l3]
    rfl
  have l5 : SerializeValueList [SerValue.u8 7, SerValue.compactSize 300,
      SerValue.varInt 300, SerValue.byteVec [1, 2, 3],
      SerValue.pairVal (SerValue.boolean true) (SerValue.u32 5)]
      = .ok [7, 253, 44, 1, 129, 44, 3, 1, 2, 3, 1, 5, 0, 0, 0] := by
    rw [SerializeValueList, eu8]
    dsimp only
    rw [l4]
    rfl
  refine getSerializeSize_eq_length _ _ ?_
  rw [SerializeValue]
  have hpre : WriteCompactSize (List.length [SerValue.u8 7,
      SerValue.compactSize 300, SerValue.varInt 300, SerValue.byteVec [1, 2, 3],
      SerValue.pairVal (SerValue.boolean true) (SerValue.u32 5)]) = .ok [5] := by
    rfl
  rw [hpre]
  dsimp only
  rw [l5]
  rfl
